/-
Verification of the SearchReportAgent repository against its specification.

The Python sources are shallowly embedded as executable Lean definitions:
strings are `List Char` (so `len`, slicing and `rfind` translate directly),
Python `dict`/JSON payloads are an inductive `Json` type, in-place mutation
becomes explicit state passing, and `raise` becomes an `Except`/`Option`
result (for the state-mutating node methods, a pair of the exception status
and the post-call object state, since a Python `raise` leaves the mutated
object as it was at the moment of the raise).

`datetime.now().isoformat()` timestamps are modelled by threading the
timestamp string produced at each call site as an explicit `now` argument.
Floating point scores are modelled as integers (floats are not statable in
this embedding); `json.dumps`/`json.loads` are modelled by an executable
renderer and recursive-descent parser over the `Json` type, with these
documented restrictions: string escape sequences and float literals are not
modelled (the parser rejects them), and the `indent=2` pretty-printing of
`json.dumps` is modelled compactly (indentation only inserts inter-token
whitespace, which `json.loads` -- and the modelled parser -- ignores).
-/
import Mathlib

set_option maxHeartbeats 1000000
set_option maxRecDepth 100000

abbrev LChar := List Char

/-- Characters that Lean source restrictions make awkward to write literally. -/
def lbrace : Char := Char.ofNat 123

def rbrace : Char := Char.ofNat 125

def btick : Char := Char.ofNat 96

def squote : Char := Char.ofNat 39

/-- Python `str.strip()` / regex `\s` whitespace set (ASCII portion). -/
def isSpacePy (c : Char) : Bool :=
  c = ' ' || c = '\t' || c = '\n' || c = '\r' || c = Char.ofNat 11 || c = Char.ofNat 12

/-- Python `str.strip()`. -/
def pyStrip (l : LChar) : LChar :=
  ((l.dropWhile isSpacePy).reverse.dropWhile isSpacePy).reverse

/-- Python `str.rfind(' ')`: index of the last space, `-1` when absent. -/
def rfindSpace : LChar → Int
  | [] => -1
  | c :: cs =>
    let r := rfindSpace cs
    if 0 ≤ r then r + 1 else if c = ' ' then 0 else -1

/-- Substring containment, `needle in hay` for Python strings. -/
def containsSub (needle : LChar) : LChar → Bool
  | [] => needle.isPrefixOf []
  | l@(_ :: cs) => needle.isPrefixOf l || containsSub needle cs

/-- Lexicographic comparison of strings by code point, `a <= b` in Python. -/
def lexLe : LChar → LChar → Bool
  | [], _ => true
  | _ :: _, [] => false
  | a :: as, b :: bs =>
    if a.toNat < b.toNat then true
    else if b.toNat < a.toNat then false
    else lexLe as bs

/-- `src/src/utils/text_processing.py`, `truncate_content`.
Python compares `last_space > max_length * 0.8`; for an integer index and
limit this float comparison agrees with the exact rational comparison
`5 * last_space > 4 * max_length` (`0.8 * L` rounds to exactly `4L/5`
whenever `4L/5` is an integer, and an integer comparison cannot see the
sub-integer rounding error otherwise). -/
def truncate_content (content : LChar) (maxLength : Nat) : LChar :=
  if content.length ≤ maxLength then content
  else
    let truncated := content.take maxLength
    let lastSpace : Int := rfindSpace truncated
    if 4 * (maxLength : Int) < 5 * lastSpace then
      truncated.take lastSpace.toNat ++ ['.', '.', '.']
    else
      truncated ++ ['.', '.', '.']

/-- JSON values, the model of Python dict/list/str/int/bool/None payloads.
Numbers are modelled as integers (floats are not statable here). -/
inductive Json where
  | null : Json
  | bool : Bool → Json
  | num : Int → Json
  | str : LChar → Json
  | arr : List Json → Json
  | obj : List (LChar × Json) → Json

/-- Whitespace skipped by `json.loads` between tokens. -/
def isJsonWs (c : Char) : Bool :=
  c = ' ' || c = '\t' || c = '\n' || c = '\r'

def skipWs (l : LChar) : LChar := l.dropWhile isJsonWs

/-- Body of a JSON string literal, after the opening quote.  Escape
sequences and raw control characters are rejected (not modelled). -/
def parseStrBody : LChar → Option (LChar × LChar)
  | [] => none
  | c :: cs =>
    if c = '"' then some ([], cs)
    else if c = '\\' then none
    else if c.toNat < 32 then none
    else
      match parseStrBody cs with
      | some (s, r) => some (c :: s, r)
      | none => none

def digitVal (c : Char) : Nat := c.toNat - 48

/-- True when the next character would make the literal a float
(which this model rejects). -/
def floatFollows (l : LChar) : Bool :=
  match l.head? with
  | some c => c = '.' || c = 'e' || c = 'E'
  | none => false

/-- A JSON natural number literal: digit run, no leading zero, no float tail. -/
def parseNatNum (l : LChar) : Option (Nat × LChar) :=
  let ds := l.takeWhile Char.isDigit
  let rest := l.dropWhile Char.isDigit
  if ds.isEmpty then none
  else if 2 ≤ ds.length && ds.head? = some '0' then none
  else if floatFollows rest then none
  else some (ds.foldl (fun a c => a * 10 + digitVal c) 0, rest)

mutual

/-- Recursive-descent model of `json.loads`, fuelled.  Returns the parsed
value and the unconsumed input. -/
def parseVal : Nat → LChar → Option (Json × LChar)
  | 0, _ => none
  | fuel + 1, l =>
    match skipWs l with
    | [] => none
    | c :: cs =>
      if c = lbrace then
        match skipWs cs with
        | [] => none
        | c2 :: cs2 =>
          if c2 = rbrace then some (.obj [], cs2)
          else if c2 = '"' then
            match parseStrBody cs2 with
            | some (k, r1) =>
              match skipWs r1 with
              | ':' :: r2 =>
                match parseVal fuel r2 with
                | some (v, r3) =>
                  match parseMembersTail fuel r3 with
                  | some (kvs, r4) => some (.obj ((k, v) :: kvs), r4)
                  | none => none
                | none => none
              | _ => none
            | none => none
          else none
      else if c = '[' then
        match skipWs cs with
        | [] => none
        | c2 :: cs2 =>
          if c2 = ']' then some (.arr [], cs2)
          else
            match parseVal fuel (c2 :: cs2) with
            | some (v, r1) =>
              match parseElemsTail fuel r1 with
              | some (xs, r2) => some (.arr (v :: xs), r2)
              | none => none
            | none => none
      else if c = '"' then
        match parseStrBody cs with
        | some (s, r) => some (.str s, r)
        | none => none
      else if c = 't' then
        match cs with
        | 'r' :: 'u' :: 'e' :: r => some (.bool true, r)
        | _ => none
      else if c = 'f' then
        match cs with
        | 'a' :: 'l' :: 's' :: 'e' :: r => some (.bool false, r)
        | _ => none
      else if c = 'n' then
        match cs with
        | 'u' :: 'l' :: 'l' :: r => some (.null, r)
        | _ => none
      else if c = '-' then
        match parseNatNum cs with
        | some (n, r) => some (.num (-(n : Int)), r)
        | none => none
      else if c.isDigit then
        match parseNatNum (c :: cs) with
        | some (n, r) => some (.num (n : Int), r)
        | none => none
      else none

/-- After the first array element: `(',' value)* ']'`. -/
def parseElemsTail : Nat → LChar → Option (List Json × LChar)
  | 0, _ => none
  | fuel + 1, l =>
    match skipWs l with
    | [] => none
    | c :: cs =>
      if c = ']' then some ([], cs)
      else if c = ',' then
        match parseVal fuel cs with
        | some (v, r1) =>
          match parseElemsTail fuel r1 with
          | some (xs, r2) => some (v :: xs, r2)
          | none => none
        | none => none
      else none

/-- After the first object member: `(',' string ':' value)*` then a brace. -/
def parseMembersTail : Nat → LChar → Option (List (LChar × Json) × LChar)
  | 0, _ => none
  | fuel + 1, l =>
    match skipWs l with
    | [] => none
    | c :: cs =>
      if c = rbrace then some ([], cs)
      else if c = ',' then
        match skipWs cs with
        | '"' :: cs2 =>
          match parseStrBody cs2 with
          | some (k, r1) =>
            match skipWs r1 with
            | ':' :: r2 =>
              match parseVal fuel r2 with
              | some (v, r3) =>
                match parseMembersTail fuel r3 with
                | some (kvs, r4) => some ((k, v) :: kvs, r4)
                | none => none
              | none => none
            | _ => none
          | none => none
        | _ => none
      else none

end

/-- Model of `json.loads`: parse one value, demand only whitespace after. -/
def parseJson (l : LChar) : Option Json :=
  match parseVal (l.length + 1) l with
  | some (v, rest) => if skipWs rest = [] then some v else none
  | none => none

def digitChar (d : Nat) : Char := Char.ofNat (48 + d)

/-- Little-endian base-10 digits, fuelled so that it reduces definitionally
(`digitsF (n + 1) n` agrees with `Nat.digits 10 n`). -/
def digitsF : Nat → Nat → List Nat
  | 0, _ => []
  | f + 1, n => if n = 0 then [] else n % 10 :: digitsF f (n / 10)

def renderNat (n : Nat) : LChar :=
  if n = 0 then ['0'] else ((digitsF (n + 1) n).map digitChar).reverse

def renderInt : Int → LChar
  | .ofNat n => renderNat n
  | .negSucc m => '-' :: renderNat (m + 1)

/-- A rendered JSON string literal (safe strings only, no escaping). -/
def renderStr (s : LChar) : LChar := '"' :: (s ++ ['"'])

def renderBool : Bool → LChar
  | true => ['t', 'r', 'u', 'e']
  | false => ['f', 'a', 'l', 's', 'e']

/-- `json.dumps` of a Python `Optional[int]` (`None` becomes `null`). -/
def renderOptInt : Option Int → LChar
  | none => ['n', 'u', 'l', 'l']
  | some i => renderInt i

/-- The comma-prefixed tail entries of a rendered object or array. -/
def renderTail : List LChar → LChar
  | [] => []
  | f :: fs => ',' :: (f ++ renderTail fs)

/-- Comma-joined field list inside braces: the object layer of `json.dumps`. -/
def renderObj (fields : List LChar) : LChar :=
  match fields with
  | [] => [lbrace, rbrace]
  | f :: fs => lbrace :: (f ++ renderTail fs ++ [rbrace])

/-- One `"key":value` field of a rendered object. -/
def renderField (k : LChar) (v : LChar) : LChar := renderStr k ++ ':' :: v

/-- Comma-joined element list inside brackets: the array layer of `json.dumps`. -/
def renderArr (items : List LChar) : LChar :=
  match items with
  | [] => ['[', ']']
  | x :: xs => '[' :: (x ++ renderTail xs ++ [']'])

/-- Python `dict.get(k)` on a parsed JSON object. -/
def pyGet (kvs : List (LChar × Json)) (k : LChar) : Option Json :=
  match kvs.find? (fun p => p.1 == k) with
  | some p => some p.2
  | none => none

/-- Python truthiness of a JSON payload. -/
def pyTruthy : Json → Bool
  | .null => false
  | .bool b => b
  | .num n => n != 0
  | .str s => !s.isEmpty
  | .arr xs => !xs.isEmpty
  | .obj kvs => !kvs.isEmpty

def fence3 : LChar := [btick, btick, btick]

def fenceJson : LChar := fence3 ++ ['j', 's', 'o', 'n']

def fenceMarkdown : LChar := fence3 ++ ['m', 'a', 'r', 'k', 'd', 'o', 'w', 'n']

/-- Fuelled scanner for `re.sub(w + r"\s*", "", text)`: remove every
occurrence of the literal word `w` together with the whitespace run
following it, scanning left to right and resuming after each removal.
Each step consumes at least one character, so fuel `length l` suffices;
the fuel-exhausted branch is never reached through `rmFenceWord`. -/
def rmFenceWordF (w : LChar) : Nat → LChar → LChar
  | 0, l => l
  | _, [] => []
  | f + 1, c :: cs =>
    if w.isPrefixOf (c :: cs) then
      rmFenceWordF w f ((cs.drop (w.length - 1)).dropWhile isSpacePy)
    else c :: rmFenceWordF w f cs

def rmFenceWord (w : LChar) (l : LChar) : LChar := rmFenceWordF w l.length l

/-- `re.sub(r"```\s*$", "", text)`: drop a trailing triple-backtick fence
together with any whitespace after it. -/
def rmFenceEnd (l : LChar) : LChar :=
  let r := l.reverse.dropWhile isSpacePy
  if fence3.isPrefixOf r then (r.drop 3).reverse else l

/-- Fuelled scanner for `re.sub("```", "", text)`: remove every remaining
triple backtick. -/
def rmFence3F : Nat → LChar → LChar
  | 0, l => l
  | _, [] => []
  | f + 1, c :: cs =>
    if fence3.isPrefixOf (c :: cs) then rmFence3F f (cs.drop 2)
    else c :: rmFence3F f cs

def rmFence3 (l : LChar) : LChar := rmFence3F l.length l

/-- `src/src/utils/text_processing.py`, `clean_json_tags`. -/
def clean_json_tags (text : LChar) : LChar :=
  pyStrip (rmFence3 (rmFenceEnd (rmFenceWord fenceJson text)))

/-- `src/src/utils/text_processing.py`, `clean_markdown_tags`. -/
def clean_markdown_tags (text : LChar) : LChar :=
  pyStrip (rmFence3 (rmFenceEnd (rmFenceWord fenceMarkdown text)))

def isBraceOpen (c : Char) : Bool := c = lbrace || c = '['

/-- The alternatives of the first reasoning-removal pattern, colon included
(`(?:reasoning| thinking| analyzing)[:]`). -/
def trigsA : List LChar :=
  ["reasoning:".data, " thinking:".data, " analyzing:".data]

/-- The alternatives of the second pattern
(`(?:explanation| explanation| explanation of)[:]`). -/
def trigsB : List LChar :=
  ["explanation:".data, " explanation:".data, " explanation of:".data]

/-- Case-insensitive prefix match (`re.IGNORECASE`). -/
def matchesCI : LChar → LChar → Bool
  | [], _ => true
  | _ :: _, [] => false
  | a :: as, b :: bs => (a.toLower == b.toLower) && matchesCI as bs

def dropToBrace (l : LChar) : LChar := l.dropWhile (fun c => !isBraceOpen c)

def hasBraceOpen (l : LChar) : Bool := l.any isBraceOpen

/-- One `re.sub(trigger + r"[:]\s*.*?(?=\{|\[)", "", text)` pass (DOTALL,
IGNORECASE): at each position, if an alternative matches and an opening
brace or bracket occurs later, the match spans up to (excluding) the first
such brace and scanning resumes there; otherwise the scan advances one
character.  The triggers are all nonempty, so `cs.drop (t.length - 1)`
below is `(c :: cs).drop t.length`. -/
def subTriggerF (trigs : List LChar) : Nat → LChar → LChar
  | 0, l => l
  | _, [] => []
  | f + 1, c :: cs =>
    match trigs.find? (fun t => matchesCI t (c :: cs)) with
    | some t =>
      if hasBraceOpen (cs.drop (t.length - 1)) then
        subTriggerF trigs f (dropToBrace (cs.drop (t.length - 1)))
      else c :: subTriggerF trigs f cs
    | none => c :: subTriggerF trigs f cs

def subTrigger (trigs : List LChar) (l : LChar) : LChar := subTriggerF trigs l.length l

/-- `re.sub(r"^.*?(?=\{|\[)", "", text)`: drop everything before the first
opening brace or bracket; no match (hence no change) when there is none. -/
def dropBeforeBrace (l : LChar) : LChar :=
  if hasBraceOpen l then dropToBrace l else l

/-- `src/src/utils/text_processing.py`, `remove_reasoning_from_output`. -/
def remove_reasoning_from_output (text : LChar) : LChar :=
  pyStrip (dropBeforeBrace (subTrigger trigsB (subTrigger trigsA text)))

/-- `re.search(a + ".*" + b, text, re.DOTALL)` for single characters `a`, `b`
(greedy): the span from the first `a` to the last `b`, when the last `b`
follows the first `a`. -/
def spanFromTo (a b : Char) (l : LChar) : Option LChar :=
  let pre := l.dropWhile (fun c => !(c = a))
  let r := (pre.reverse.dropWhile (fun c => !(c = b))).reverse
  if pre.isEmpty || r.isEmpty then none else some r

/-- The tagged failure record `extract_clean_response` returns when every
parse attempt fails; note it carries the cleaned text. -/
def failRecord (cleaned : LChar) : Json :=
  Json.obj [("error".data, Json.str "Failed to parse JSON response".data),
            ("raw_text".data, Json.str cleaned)]

/-- The array-pattern attempt at the end of `extract_clean_response`. -/
def extractArrayAttempt (cleaned : LChar) : Json :=
  match spanFromTo '[' ']' cleaned with
  | some sp =>
    match parseJson sp with
    | some v => v
    | none => failRecord cleaned
  | none => failRecord cleaned

/-- `src/src/utils/text_processing.py`, `extract_clean_response`. -/
def extract_clean_response (text : LChar) : Json :=
  let cleaned := remove_reasoning_from_output (clean_json_tags text)
  match parseJson cleaned with
  | some v => v
  | none =>
    match spanFromTo lbrace rbrace cleaned with
    | some sp =>
      match parseJson sp with
      | some v => v
      | none => extractArrayAttempt cleaned
    | none => extractArrayAttempt cleaned

/-- `src/src/state/state.py`, `Search` (one search record).  The Python
`timestamp` default factory `datetime.now().isoformat()` is modelled by an
explicit `now` argument at each construction site; `score: Optional[float]`
is modelled as `Option Int`. -/
structure Search where
  query : LChar := []
  url : LChar := []
  title : LChar := []
  content : LChar := []
  score : Option Int := none
  timestamp : LChar := []
deriving DecidableEq, Repr

/-- `src/src/state/state.py`, `Research`. -/
structure Research where
  search_history : List Search := []
  latest_summary : LChar := []
  reflection_iteration : Int := 0
  is_finished : Bool := false
deriving DecidableEq, Repr

/-- `src/src/state/state.py`, `Paragraph`. -/
structure Paragraph where
  title : LChar := []
  content : LChar := []
  research : Research := {}
  order : Int := 0
deriving DecidableEq, Repr

/-- `src/src/state/state.py`, `State`. -/
structure State where
  query : LChar := []
  report_title : LChar := []
  paragraphs : List Paragraph := []
  final_report : LChar := []
  is_completed : Bool := false
  created_at : LChar := []
  updated_at : LChar := []
deriving DecidableEq, Repr

/-- One result dict returned by the search collaborator (`tavily_search`),
restricted to the four keys the state layer reads out of it. -/
structure SearchResult where
  url : LChar := []
  title : LChar := []
  content : LChar := []
  score : Option Int := none
deriving DecidableEq, Repr

/-- `Research.add_search`. -/
def Research.add_search (r : Research) (s : Search) : Research :=
  { r with search_history := r.search_history ++ [s] }

/-- `Research.add_search_results`: build a `Search` per result dict and
append it.  All records of one call share the `now` timestamp. -/
def Research.add_search_results (r : Research) (query : LChar)
    (results : List SearchResult) (now : LChar) : Research :=
  results.foldl
    (fun acc res =>
      acc.add_search
        { query := query, url := res.url, title := res.title,
          content := res.content, score := res.score, timestamp := now })
    r

/-- `Research.get_search_count`. -/
def Research.get_search_count (r : Research) : Nat := r.search_history.length

/-- `Research.increment_reflection_iteration`. -/
def Research.increment_reflection_iteration (r : Research) : Research :=
  { r with reflection_iteration := r.reflection_iteration + 1 }

/-- `Research.mark_completed`. -/
def Research.mark_completed (r : Research) : Research :=
  { r with is_finished := true }

/-- `Paragraph.is_finished` (the Python method, not the `Research` field). -/
def Paragraph.isFinishedM (p : Paragraph) : Bool :=
  p.research.is_finished && !p.research.latest_summary.isEmpty

/-- `Paragraph.get_final_content`: `latest_summary or content`. -/
def Paragraph.get_final_content (p : Paragraph) : LChar :=
  if p.research.latest_summary.isEmpty then p.content else p.research.latest_summary

/-- `State.add_paragraph`: append a fresh paragraph with dense order and
bump the timestamp; returns the new order as Python does. -/
def State.add_paragraph (now : LChar) (st : State) (title content : LChar) :
    State × Nat :=
  let order := st.paragraphs.length
  let p : Paragraph := { title := title, content := content, order := (order : Int) }
  ({ st with paragraphs := st.paragraphs ++ [p], updated_at := now }, order)

/-- `State.get_paragraphs`: bounds-checked lookup, `None` out of range. -/
def State.get_paragraphs (st : State) (index : Int) : Option Paragraph :=
  if 0 ≤ index ∧ index < st.paragraphs.length then st.paragraphs.get? index.toNat
  else none

/-- `State.get_completed_paragraphs_count`. -/
def State.get_completed_paragraphs_count (st : State) : Nat :=
  (st.paragraphs.filter Paragraph.isFinishedM).length

/-- `State.get_total_paragraphs_count`. -/
def State.get_total_paragraphs_count (st : State) : Nat := st.paragraphs.length

/-- `State.is_all_paragraphs_completed`. -/
def State.is_all_paragraphs_completed (st : State) : Bool :=
  if st.paragraphs.isEmpty then false else st.paragraphs.all Paragraph.isFinishedM

/-- `State.update_timestamp`: `updated_at = datetime.now().isoformat()`. -/
def State.update_timestamp (now : LChar) (st : State) : State :=
  { st with updated_at := now }

/-- `State.mark_completed` (sets the flag, then `update_timestamp`). -/
def State.mark_completed (now : LChar) (st : State) : State :=
  State.update_timestamp now { st with is_completed := true }

/-- Typed getter for `data.get(k, default)` expecting a string value; `none`
models the eventual `AttributeError`/`TypeError` when a present value has a
shape the surrounding Python code cannot store in this typed model. -/
def getStrD (kvs : List (LChar × Json)) (k : LChar) (d : LChar) : Option LChar :=
  match pyGet kvs k with
  | none => some d
  | some (.str s) => some s
  | some _ => none

def getIntD (kvs : List (LChar × Json)) (k : LChar) (d : Int) : Option Int :=
  match pyGet kvs k with
  | none => some d
  | some (.num n) => some n
  | some _ => none

def getBoolD (kvs : List (LChar × Json)) (k : LChar) (d : Bool) : Option Bool :=
  match pyGet kvs k with
  | none => some d
  | some (.bool b) => some b
  | some _ => none

/-- `data.get('score')`: missing and `null` both load as `None`. -/
def getScore (kvs : List (LChar × Json)) : Option (Option Int) :=
  match pyGet kvs "score".data with
  | none => some none
  | some .null => some none
  | some (.num n) => some (some n)
  | some _ => none

/-- `data.get(k, now-default)` for the timestamp fields whose Python default
is `datetime.now().isoformat()`. -/
def getStrNow (kvs : List (LChar × Json)) (k : LChar) (now : LChar) : Option LChar :=
  match pyGet kvs k with
  | none => some now
  | some (.str s) => some s
  | some _ => none

def getListD (kvs : List (LChar × Json)) (k : LChar) : Option (List Json) :=
  match pyGet kvs k with
  | none => some []
  | some (.arr xs) => some xs
  | some _ => none

/-- `Search.to_dict`. -/
def Search.to_dict (x : Search) : Json :=
  Json.obj
    [("query".data, Json.str x.query), ("url".data, Json.str x.url),
     ("title".data, Json.str x.title), ("content".data, Json.str x.content),
     ("score".data, match x.score with | none => Json.null | some i => Json.num i),
     ("timestamp".data, Json.str x.timestamp)]

/-- `Search.from_dict`. -/
def Search.from_dict (now : LChar) (kvs : List (LChar × Json)) : Option Search := do
  let query ← getStrD kvs "query".data []
  let url ← getStrD kvs "url".data []
  let title ← getStrD kvs "title".data []
  let content ← getStrD kvs "content".data []
  let score ← getScore kvs
  let timestamp ← getStrNow kvs "timestamp".data now
  pure { query := query, url := url, title := title, content := content,
         score := score, timestamp := timestamp }

/-- `Research.to_dict`. -/
def Research.to_dict (r : Research) : Json :=
  Json.obj
    [("search_history".data, Json.arr (r.search_history.map Search.to_dict)),
     ("latest_summary".data, Json.str r.latest_summary),
     ("reflection_iteration".data, Json.num r.reflection_iteration),
     ("is_finished".data, Json.bool r.is_finished)]

/-- `Research.from_dict`. -/
def Research.from_dict (now : LChar) (kvs : List (LChar × Json)) : Option Research := do
  let hist ← getListD kvs "search_history".data
  let hist ← hist.mapM (fun j =>
    match j with
    | .obj k => Search.from_dict now k
    | _ => none)
  let latest ← getStrD kvs "latest_summary".data []
  let iter ← getIntD kvs "reflection_iteration".data 0
  let fin ← getBoolD kvs "is_finished".data false
  pure { search_history := hist, latest_summary := latest,
         reflection_iteration := iter, is_finished := fin }

/-- `Paragraph.to_dict`. -/
def Paragraph.to_dict (p : Paragraph) : Json :=
  Json.obj
    [("title".data, Json.str p.title), ("content".data, Json.str p.content),
     ("research".data, p.research.to_dict), ("order".data, Json.num p.order)]

/-- `Paragraph.from_dict`: `research = Research.from_dict(rd) if rd else
Research()`, with Python truthiness on the fetched value. -/
def Paragraph.from_dict (now : LChar) (kvs : List (LChar × Json)) : Option Paragraph := do
  let research ←
    match pyGet kvs "research".data with
    | none => some ({} : Research)
    | some j =>
      if pyTruthy j then
        match j with
        | .obj k => Research.from_dict now k
        | _ => none
      else some ({} : Research)
  let title ← getStrD kvs "title".data []
  let content ← getStrD kvs "content".data []
  let order ← getIntD kvs "order".data 0
  pure { title := title, content := content, research := research, order := order }

/-- `State.to_dict`. -/
def State.to_dict (st : State) : Json :=
  Json.obj
    [("query".data, Json.str st.query),
     ("report_title".data, Json.str st.report_title),
     ("paragraphs".data, Json.arr (st.paragraphs.map Paragraph.to_dict)),
     ("final_report".data, Json.str st.final_report),
     ("is_completed".data, Json.bool st.is_completed),
     ("created_at".data, Json.str st.created_at),
     ("updated_at".data, Json.str st.updated_at)]

/-- `State.from_dict`. -/
def State.from_dict (now : LChar) (kvs : List (LChar × Json)) : Option State := do
  let ps ← getListD kvs "paragraphs".data
  let ps ← ps.mapM (fun j =>
    match j with
    | .obj k => Paragraph.from_dict now k
    | _ => none)
  let query ← getStrD kvs "query".data []
  let report_title ← getStrD kvs "report_title".data []
  let final_report ← getStrD kvs "final_report".data []
  let is_completed ← getBoolD kvs "is_completed".data false
  let created_at ← getStrNow kvs "created_at".data now
  let updated_at ← getStrNow kvs "updated_at".data now
  pure { query := query, report_title := report_title, paragraphs := ps,
         final_report := final_report, is_completed := is_completed,
         created_at := created_at, updated_at := updated_at }

/-- `json.dumps(Search.to_dict(x))`. -/
def Search.render (x : Search) : LChar :=
  renderObj
    [renderField "query".data (renderStr x.query),
     renderField "url".data (renderStr x.url),
     renderField "title".data (renderStr x.title),
     renderField "content".data (renderStr x.content),
     renderField "score".data (renderOptInt x.score),
     renderField "timestamp".data (renderStr x.timestamp)]

/-- `json.dumps(Research.to_dict(r))`. -/
def Research.render (r : Research) : LChar :=
  renderObj
    [renderField "search_history".data (renderArr (r.search_history.map Search.render)),
     renderField "latest_summary".data (renderStr r.latest_summary),
     renderField "reflection_iteration".data (renderInt r.reflection_iteration),
     renderField "is_finished".data (renderBool r.is_finished)]

/-- `json.dumps(Paragraph.to_dict(p))`. -/
def Paragraph.render (p : Paragraph) : LChar :=
  renderObj
    [renderField "title".data (renderStr p.title),
     renderField "content".data (renderStr p.content),
     renderField "research".data p.research.render,
     renderField "order".data (renderInt p.order)]

/-- `State.to_json`: `json.dumps(self.to_dict(), ...)` (compact rendering,
see the header comment). -/
def State.to_json (st : State) : LChar :=
  renderObj
    [renderField "query".data (renderStr st.query),
     renderField "report_title".data (renderStr st.report_title),
     renderField "paragraphs".data (renderArr (st.paragraphs.map Paragraph.render)),
     renderField "final_report".data (renderStr st.final_report),
     renderField "is_completed".data (renderBool st.is_completed),
     renderField "created_at".data (renderStr st.created_at),
     renderField "updated_at".data (renderStr st.updated_at)]

/-- `State.from_json`: `from_dict(json.loads(s))`; a parse failure or a
non-dict top level is a raised error, modelled as `none`. -/
def State.from_json (now : LChar) (l : LChar) : Option State :=
  match parseJson l with
  | some (.obj kvs) => State.from_dict now kvs
  | some _ => none
  | none => none

/-- Index-bounded functional update of the paragraph list (the model of
`state.paragraphs[n].… = …`; out-of-range indices never occur at the
modelled call sites, where Python would raise `IndexError`). -/
def modifyAt (n : Nat) (f : Paragraph → Paragraph) : List Paragraph → List Paragraph
  | [] => []
  | p :: ps =>
    match n with
    | 0 => f p :: ps
    | n + 1 => p :: modifyAt n f ps

def modifyParagraph (st : State) (n : Nat) (f : Paragraph → Paragraph) : State :=
  { st with paragraphs := modifyAt n f st.paragraphs }

def modifyResearch (st : State) (n : Nat) (f : Research → Research) : State :=
  modifyParagraph st n (fun p => { p with research := f p.research })

/-- Result of a Python method that mutates a state object in place and may
raise: the raised message (if any) paired with the object state after the
call (unchanged past the point of the raise). -/
abbrev MutResult := Option LChar × State

/-- `src/src/nodes/summary_node.py`, `FirstSummaryNode.mutate_state`, with
the summary produced by `run` passed in (`run` only raises on invalid
input, which the orchestrator never builds).  Out of range: raise
`ValueError`, no summary write, no timestamp update. -/
def firstSummary_mutate (summary : LChar) (st : State) (i : Int) (now : LChar) :
    MutResult :=
  if 0 ≤ i ∧ i < st.paragraphs.length then
    let st := modifyResearch st i.toNat (fun r => { r with latest_summary := summary })
    (none, State.update_timestamp now st)
  else
    (some "Paragraph index out of range".data, st)

/-- `src/src/nodes/summary_node.py`, `ReflectionSummaryNode.mutate_state`:
in range, write the summary, increment `reflection_iteration`, bump the
timestamp; out of range, raise and leave the state untouched. -/
def reflectionSummary_mutate (summary : LChar) (st : State) (i : Int) (now : LChar) :
    MutResult :=
  if 0 ≤ i ∧ i < st.paragraphs.length then
    let st := modifyResearch st i.toNat
      (fun r => ({ r with latest_summary := summary }).increment_reflection_iteration)
    (none, State.update_timestamp now st)
  else
    (some "Paragraph index out of range".data, st)

/-- The fixed two-entry fallback of `ReportStructureNode.process_output`. -/
def structureFallback (query : LChar) : List (LChar × LChar) :=
  [("Overview".data,
    "The overall overview and background introduction of ".data
      ++ squote :: (query ++ [squote])),
   ("Detailed Analysis".data,
    "Deep analysis of the related content of ".data ++ squote :: (query ++ [squote]))]

/-- Python `"error" in x` on a parsed payload: key membership for a dict,
element membership for a list, substring for a string; `none` models the
`TypeError` on the remaining types. -/
def pyInError : Json → Option Bool
  | .obj kvs => some (kvs.any (fun p => p.1 == "error".data))
  | .arr xs =>
    some (xs.any (fun j => match j with | .str s => s == "error".data | _ => false))
  | .str s => some (containsSub "error".data s)
  | _ => none

/-- The parsing stage of `ReportStructureNode.process_output`: clean, try
`json.loads`, fall back to `extract_clean_response` with its `"error" in`
check, then require a list.  `none` is any raised error (caught by the
caller, which falls back). -/
def reportStructure_parsed (output : LChar) : Option (List Json) :=
  let cleaned := clean_json_tags (remove_reasoning_from_output output)
  match parseJson cleaned with
  | some v =>
    match v with
    | .arr l => some l
    | _ => none
  | none =>
    let r := extract_clean_response cleaned
    match pyInError r with
    | none => none
    | some true => none
    | some false =>
      match r with
      | .arr l => some l
      | _ => none

/-- One entry of the validation loop: skip non-dicts (`some none`), default
the title to `"Paragraph {i+1}"` and the content to `""`, strip both; a
present non-string value raises (`none`, `.strip()` on a non-string). -/
def validateEntry (i : Nat) : Json → Option (Option (LChar × LChar))
  | .obj kvs =>
    (match pyGet kvs "title".data with
     | none => some ("Paragraph ".data ++ renderNat (i + 1))
     | some (.str s) => some s
     | some _ => none).bind fun t =>
    (match pyGet kvs "content".data with
     | none => some ([] : LChar)
     | some (.str s) => some s
     | some _ => none).bind fun c =>
    some (some (pyStrip t, pyStrip c))
  | _ => some none

def validateEntries (i : Nat) : List Json → Option (List (LChar × LChar))
  | [] => some []
  | j :: js => do
    let e ← validateEntry i j
    let rest ← validateEntries (i + 1) js
    pure (match e with | some p => p :: rest | none => rest)

/-- `src/src/nodes/report_structure_node.py`,
`ReportStructureNode.process_output`: validated entries of the parsed list,
or the deterministic two-entry skeleton on any raised error. -/
def reportStructure_process_output (query output : LChar) : List (LChar × LChar) :=
  match reportStructure_parsed output with
  | some l =>
    match validateEntries 0 l with
    | some es => es
    | none => structureFallback query
  | none => structureFallback query

/-- `ReportStructureNode.mutate_state`, with the raw model output passed in
for `run`: set query and default report title, then `add_paragraph` each
validated entry. -/
def reportStructure_mutate (query llmOutput now : LChar) (state : Option State) :
    State :=
  let st := state.getD {}
  let entries := reportStructure_process_output query llmOutput
  let st :=
    { st with
      query := query,
      report_title :=
        if st.report_title.isEmpty then
          "Research Report of ".data ++ squote :: (query ++ [squote])
        else st.report_title }
  entries.foldl (fun acc p => (State.add_paragraph now acc p.1 p.2).1) st

/-- `src/src/nodes/formatting_node.py`,
`ReportFormattingNode.process_output`: clean, raise on empty, prepend the
default title exactly when the cleaned text does not start with `#`. -/
def formatting_process_output (output : LChar) : Except LChar LChar :=
  let cleaned := clean_markdown_tags (remove_reasoning_from_output output)
  if (pyStrip cleaned).isEmpty then .error "Empty output".data
  else
    let cleaned2 :=
      if !(['#'].isPrefixOf (pyStrip cleaned)) then
        "# Search Report: ".data ++ cleaned
      else cleaned
    .ok (pyStrip cleaned2)

/-- `ReportFormattingNode.format_report_manually`; the entries are the
`{"title", "paragraph_latest_state"}` dicts built by the agent, modelled as
(title, content) pairs. -/
def format_report_manually (paragraphs_data : List (LChar × LChar))
    (report_title : LChar) : LChar :=
  let header := ["# ".data ++ report_title, [], "---".data, []]
  let blocks := (paragraphs_data.map (fun p =>
    if p.2.isEmpty then []
    else ["## ".data ++ p.1, [], p.2, [], "---".data, []])).flatten
  let concl :=
    if 1 < paragraphs_data.length then ["# Conclusion".data, [], "---".data, []]
    else ([] : List LChar)
  List.intercalate ['\n'] (header ++ blocks ++ concl)

/-- `src/src/agent.py`, `SearchReportAgent._generate_final_report`, with the
outcome of `report_formatting_node.run` passed in: a formatting failure is
re-raised (the manual fallback is never invoked there); on success the
report is stored and the state marked completed. -/
def generate_final_report (formatted : Except LChar LChar) (now : LChar)
    (st : State) : Except LChar (LChar × State) :=
  match formatted with
  | .error e => .error e
  | .ok rep =>
    .ok (rep, State.mark_completed now { st with final_report := rep })

/-- The per-call data of one search-and-summarize step of the orchestrator:
the generated query, the collaborator results, the summary text the
summarizer run produced, and the two timestamps taken during the step.
Quantifying over these models arbitrary (successful) collaborator calls. -/
structure PassData where
  query : LChar := []
  results : List SearchResult := []
  summary : LChar := []
  tSearch : LChar := []
  tMut : LChar := []
deriving Repr

/-- `SearchReportAgent._initial_search_and_summary`:
`paragraph.research.add_search_results(...)` (no timestamp bump), then
`first_summary_node.mutate_state`. -/
def initial_search_and_summary (d : PassData) (st : State) (i : Nat) : State :=
  let st := modifyResearch st i
    (fun r => r.add_search_results d.query d.results d.tSearch)
  (firstSummary_mutate d.summary st (i : Int) d.tMut).2

/-- One iteration of `SearchReportAgent._reflection_loop`. -/
def reflection_pass (d : PassData) (st : State) (i : Nat) : State :=
  let st := modifyResearch st i
    (fun r => r.add_search_results d.query d.results d.tSearch)
  (reflectionSummary_mutate d.summary st (i : Int) d.tMut).2

/-- State after the first `k` reflection iterations for paragraph `i`. -/
def reflection_stage (data : Nat → PassData) (st : State) (i : Nat) : Nat → State
  | 0 => st
  | k + 1 => reflection_pass (data k) (reflection_stage data st i k) i

/-- The per-paragraph body of `SearchReportAgent._process_paragraphs`:
initial search and summary, `max_reflections` reflection iterations, then
`research.mark_completed()`. -/
def process_paragraph (init : PassData) (data : Nat → PassData)
    (maxReflections : Nat) (st : State) (i : Nat) : State :=
  let st1 := initial_search_and_summary init st i
  let st2 := reflection_stage data st1 i maxReflections
  modifyResearch st2 i Research.mark_completed

/-- The session operations that touch the report state, for the timestamp
invariant: each constructor names the concrete code path it models. -/
inductive SessionOp where
  | addParagraph (title content : LChar)
  | firstSummary (summary : LChar) (i : Int)
  | reflectionSummary (summary : LChar) (i : Int)
  | addSearchResults (i : Nat) (query : LChar) (results : List SearchResult)
  | researchMarkCompleted (i : Nat)
  | stateMarkCompleted
  | updateTimestamp

/-- Apply one session operation at timestamp `now`. -/
def applyOp (now : LChar) (op : SessionOp) (st : State) : State :=
  match op with
  | .addParagraph t c => (State.add_paragraph now st t c).1
  | .firstSummary s i => (firstSummary_mutate s st i now).2
  | .reflectionSummary s i => (reflectionSummary_mutate s st i now).2
  | .addSearchResults i q rs =>
    modifyResearch st i (fun r => r.add_search_results q rs now)
  | .researchMarkCompleted i => modifyResearch st i Research.mark_completed
  | .stateMarkCompleted => State.mark_completed now st
  | .updateTimestamp => State.update_timestamp now st

/-- Run a sequence of timestamped session operations. -/
def runOps : List (LChar × SessionOp) → State → State
  | [], st => st
  | (now, op) :: rest, st => runOps rest (applyOp now op st)

/-- The timestamps of an operation sequence are non-decreasing and start no
earlier than `t`. -/
def clockMono : LChar → List (LChar × SessionOp) → Bool
  | _, [] => true
  | t, (now, _) :: rest => lexLe t now && clockMono now rest

/-- Research record of paragraph `i` (used to state orchestrator claims). -/
def researchAt (st : State) (i : Nat) : Research :=
  (st.paragraphs.getD i {}).research

/-- A markdown document opening with a level-1 heading (`"# "`). -/
def opensWithTopHeading (l : LChar) : Bool := "# ".data.isPrefixOf l

/-- The cleaned text `extract_clean_response` works on (and embeds in its
failure record). -/
def cleanedOf (t : LChar) : LChar :=
  remove_reasoning_from_output (clean_json_tags t)

/-- The cleaned text `ReportFormattingNode.process_output` works on. -/
def mdCleanedOf (t : LChar) : LChar :=
  clean_markdown_tags (remove_reasoning_from_output t)

/-- Prose admissible before an embedded JSON value: no opening brace or
bracket and no backtick. -/
def proseOk (p : LChar) : Bool :=
  p.all (fun c => !(isBraceOpen c) && !(c = btick))

def noTick (l : LChar) : Bool := l.all (fun c => !(c = btick))

/-- The embedded JSON text opens with a brace or bracket... -/
def jsonHeadOk (s : LChar) : Bool :=
  match s with
  | c :: _ => isBraceOpen c
  | [] => false

/-- ...and ends with a non-whitespace character. -/
def jsonTailOk (s : LChar) : Bool :=
  match s.getLast? with
  | some c => !isSpacePy c
  | none => false

/-- No reasoning-trigger alternative matches at this position with an
opening brace or bracket after it (so `subTrigger` passes it unchanged). -/
def trigFreeAt (trigs : List LChar) (l : LChar) : Bool :=
  match trigs.find? (fun t => matchesCI t l) with
  | some t => !hasBraceOpen (l.drop t.length)
  | none => true

/-- `trigFreeAt` at every suffix. -/
def trigFree (trigs : List LChar) : LChar → Bool
  | [] => true
  | c :: cs => trigFreeAt trigs (c :: cs) && trigFree trigs cs

/-- Characters whose JSON string rendering is escape-free (the parser model
does not handle escapes; see the header comment). -/
def safeChar (c : Char) : Bool :=
  !(c = '"') && !(c = '\\') && decide (32 ≤ c.toNat)

def SafeStr (s : LChar) : Bool := s.all safeChar

def SafeSearch (x : Search) : Bool :=
  SafeStr x.query && SafeStr x.url && SafeStr x.title && SafeStr x.content
    && SafeStr x.timestamp

def SafeResearch (r : Research) : Bool :=
  r.search_history.all SafeSearch && SafeStr r.latest_summary

def SafeParagraph (p : Paragraph) : Bool :=
  SafeStr p.title && SafeStr p.content && SafeResearch p.research

def SafeState (st : State) : Bool :=
  SafeStr st.query && SafeStr st.report_title && st.paragraphs.all SafeParagraph
    && SafeStr st.final_report && SafeStr st.created_at && SafeStr st.updated_at

/-- `rest` does not start with a character that would extend a preceding
number literal. -/
def numBoundary (rest : LChar) : Bool :=
  match rest with
  | [] => true
  | c :: _ => !c.isDigit && !(c = '.') && !(c = 'e') && !(c = 'E')

/-- `rendered` parses to `v` against any continuation and any sufficient
fuel: the induction interface for the `json.dumps`/`json.loads` round trip. -/
def ParsesTo (rendered : LChar) (v : Json) : Prop :=
  ∀ rest fuel, rendered.length + rest.length < fuel → numBoundary rest = true →
    parseVal fuel (rendered ++ rest) = some (v, rest)

/-- The first character of a rendered JSON value is never whitespace and
never a structural closer or separator, so parser dispatch on it is
deterministic. -/
def valHead (l : LChar) : Bool :=
  match l with
  | [] => false
  | c :: _ => !isJsonWs c && !(c = ']') && !(c = rbrace) && !(c = ',')

/-- Lines of a document (`"\n".join`-inverse). -/
def linesOf (l : LChar) : List LChar := l.splitOn '\n'

/-- A concrete populated report state exercising every serialized field:
two paragraphs, a search record with a score and one without, a negative
order, and all flags set away from their defaults. -/
def wState : State :=
  { query := "q1".data, report_title := "Report".data,
    paragraphs :=
      [{ title := "Intro".data, content := "scope a".data,
         research :=
           { search_history :=
               [{ query := "s1".data, url := "u1".data, title := "t1".data,
                  content := "c1".data, score := some 3, timestamp := "T1".data },
                { query := "s2".data, url := "u2".data, title := "t2".data,
                  content := "c2".data, score := none, timestamp := "T2".data }],
             latest_summary := "sum 1".data, reflection_iteration := 2,
             is_finished := true },
         order := 0 },
       { title := "Body".data, content := "scope b".data,
         research := {}, order := -1 }],
    final_report := "done".data, is_completed := true,
    created_at := "T3".data, updated_at := "T4".data }

/-
Theorems.  Helper lemmas first, then one theorem per claim C1..C10 (with
witnesses and counterexamples where the status requires them).
-/

theorem modifyAt_length (n : Nat) (f : Paragraph → Paragraph) :
    ∀ l : List Paragraph, (modifyAt n f l).length = l.length := by
  intro l
  induction l generalizing n with
  | nil => simp [modifyAt]
  | cons p ps ih =>
    cases n with
    | zero => simp [modifyAt]
    | succ n => simp [modifyAt, ih]

theorem modifyAt_getD (f : Paragraph → Paragraph) :
    ∀ (l : List Paragraph) (n : Nat), n < l.length →
      (modifyAt n f l).getD n {} = f (l.getD n {}) := by
  intro l
  induction l with
  | nil => intro n h; simp at h
  | cons p ps ih =>
    intro n h
    cases n with
    | zero => simp [modifyAt]
    | succ n =>
      simp only [modifyAt, List.getD_cons_succ]
      exact ih n (by simpa using h)

theorem researchAt_modifyResearch (st : State) (i : Nat) (f : Research → Research)
    (h : i < st.paragraphs.length) :
    researchAt (modifyResearch st i f) i = f (researchAt st i) := by
  simp only [researchAt, modifyResearch, modifyParagraph]
  rw [modifyAt_getD _ _ _ h]

theorem modifyResearch_length (st : State) (i : Nat) (f : Research → Research) :
    (modifyResearch st i f).paragraphs.length = st.paragraphs.length := by
  simp [modifyResearch, modifyParagraph, modifyAt_length]

/-- Claim C10: `State.get_paragraphs(index)` returns the paragraph at that
position exactly when `0 <= index < len(paragraphs)` and `None` for every
out-of-range index (negative included) instead of raising.  The lookup is a
pure function of the state in this embedding, so it cannot mutate it. -/
theorem claim_C10_get_paragraphs (st : State) (index : Int) :
    (∀ (h1 : 0 ≤ index) (h2 : index < st.paragraphs.length),
      ∃ h : index.toNat < st.paragraphs.length,
        st.get_paragraphs index = some (st.paragraphs.get ⟨index.toNat, h⟩))
    ∧ ((index < 0 ∨ (st.paragraphs.length : Int) ≤ index) →
      st.get_paragraphs index = none) := by
  constructor
  · intro h1 h2
    have h : index.toNat < st.paragraphs.length := by omega
    refine ⟨h, ?_⟩
    simp only [State.get_paragraphs, if_pos (And.intro h1 h2)]
    exact List.get?_eq_get h
  · intro h
    simp only [State.get_paragraphs]
    rw [if_neg]
    omega

theorem claim_C10_witness :
    (∃ h : (0 : Int).toNat < (State.mk [] [] [{}] [] false [] []).paragraphs.length,
      (State.mk [] [] [{}] [] false [] []).get_paragraphs 0
        = some ((State.mk [] [] [{}] [] false [] []).paragraphs.get ⟨(0 : Int).toNat, h⟩))
    ∧ (State.mk [] [] [{}] [] false [] []).get_paragraphs (-1) = none := by
  refine ⟨?_, ?_⟩
  · exact (claim_C10_get_paragraphs (State.mk [] [] [{}] [] false [] []) 0).1
      (by decide) (by decide)
  · exact (claim_C10_get_paragraphs (State.mk [] [] [{}] [] false [] []) (-1)).2
      (by decide)

/-- Claim C9: for every state and every out-of-range paragraph index, both
Summarizer state mutations (`FirstSummaryNode.mutate_state` and
`ReflectionSummaryNode.mutate_state`) raise a distinguishable `ValueError`
that propagates, and the state is left exactly as it was: no
`latest_summary` write, no `reflection_iteration` increment, no timestamp
update. -/
theorem claim_C9_out_of_range (summary : LChar) (st : State) (i : Int) (now : LChar)
    (h : i < 0 ∨ (st.paragraphs.length : Int) ≤ i) :
    firstSummary_mutate summary st i now
        = (some "Paragraph index out of range".data, st)
    ∧ reflectionSummary_mutate summary st i now
        = (some "Paragraph index out of range".data, st) := by
  constructor
  · simp only [firstSummary_mutate]
    rw [if_neg]
    omega
  · simp only [reflectionSummary_mutate]
    rw [if_neg]
    omega

theorem claim_C9_witness :
    ((5 : Int) < 0 ∨ ((State.mk [] [] [{}] [] false [] []).paragraphs.length : Int) ≤ 5)
    ∧ firstSummary_mutate "s".data (State.mk [] [] [{}] [] false [] []) 5 "T".data
        = (some "Paragraph index out of range".data, State.mk [] [] [{}] [] false [] []) := by
  refine ⟨by decide, ?_⟩
  exact (claim_C9_out_of_range "s".data (State.mk [] [] [{}] [] false [] []) 5 "T".data
    (by decide)).1

theorem lexLe_refl : ∀ l : LChar, lexLe l l = true := by
  intro l
  induction l with
  | nil => rfl
  | cons a as ih => simp [lexLe, ih]

theorem lexLe_trans : ∀ a b c : LChar,
    lexLe a b = true → lexLe b c = true → lexLe a c = true := by
  intro a
  induction a with
  | nil => intro b c _ _; rfl
  | cons x xs ih =>
    intro b c hab hbc
    match b, c with
    | [], _ => simp [lexLe] at hab
    | _ :: _, [] => simp [lexLe] at hbc
    | y :: ys, z :: zs =>
      simp only [lexLe] at hab hbc ⊢
      split at hab
      next h1 =>
        split at hbc
        next h2 => rw [if_pos (Nat.lt_trans h1 h2)]
        next h2 =>
          split at hbc
          next h3 => simp at hbc
          next h3 => rw [if_pos (by omega : x.toNat < z.toNat)]
      next h1 =>
        split at hab
        next h2 => simp at hab
        next h2 =>
          split at hbc
          next h3 => rw [if_pos (by omega : x.toNat < z.toNat)]
          next h3 =>
            split at hbc
            next h4 => simp at hbc
            next h4 =>
              rw [if_neg (by omega : ¬x.toNat < z.toNat),
                if_neg (by omega : ¬z.toNat < x.toNat)]
              exact ih ys zs hab hbc

theorem applyOp_updated_at (now : LChar) (op : SessionOp) (st : State) :
    (applyOp now op st).updated_at = st.updated_at
      ∨ (applyOp now op st).updated_at = now := by
  cases op with
  | addParagraph t c => right; rfl
  | firstSummary s i =>
    simp only [applyOp, firstSummary_mutate]
    split
    · right; rfl
    · left; rfl
  | reflectionSummary s i =>
    simp only [applyOp, reflectionSummary_mutate]
    split
    · right; rfl
    · left; rfl
  | addSearchResults i q rs => left; rfl
  | researchMarkCompleted i => left; rfl
  | stateMarkCompleted => right; rfl
  | updateTimestamp => right; rfl

theorem clockMono_weaken : ∀ (ops : List (LChar × SessionOp)) (a b : LChar),
    lexLe a b = true → clockMono b ops = true → clockMono a ops = true := by
  intro ops a b hab h
  cases ops with
  | nil => rfl
  | cons p rest =>
    obtain ⟨now, op⟩ := p
    simp only [clockMono, Bool.and_eq_true] at h ⊢
    exact ⟨lexLe_trans a b now hab h.1, h.2⟩

theorem runOps_updated_mono : ∀ (ops : List (LChar × SessionOp)) (st : State),
    clockMono st.updated_at ops = true →
    lexLe st.updated_at (runOps ops st).updated_at = true := by
  intro ops
  induction ops with
  | nil => intro st _; exact lexLe_refl _
  | cons p rest ih =>
    intro st h
    obtain ⟨now, op⟩ := p
    simp only [clockMono, Bool.and_eq_true] at h
    simp only [runOps]
    rcases applyOp_updated_at now op st with heq | heq
    · have hmono : clockMono (applyOp now op st).updated_at rest = true := by
        rw [heq]
        exact clockMono_weaken rest _ _ h.1 h.2
      have h2 := ih (applyOp now op st) hmono
      rw [heq] at h2
      exact h2
    · have hmono : clockMono (applyOp now op st).updated_at rest = true := by
        rw [heq]
        exact h.2
      refine lexLe_trans _ _ _ ?_ (ih _ hmono)
      rw [heq]
      exact h.1

/-- Claim C7 (amended): over every sequence of session operations whose
timestamps are non-decreasing, `updated_at` is monotonically
non-decreasing, and every single operation either preserves `updated_at` or
sets it to the operation's own timestamp.  However, `updated_at` is NOT
bumped on every mutation of an owned section: appending search records
(`Research.add_search_results`, as the agent calls it directly on
`paragraph.research`) and marking a section's research finished
(`research.mark_completed()` in `_process_paragraphs`) leave `updated_at`
unchanged. -/
theorem claim_C7_amended :
    (∀ (ops : List (LChar × SessionOp)) (st : State),
      clockMono st.updated_at ops = true →
      lexLe st.updated_at (runOps ops st).updated_at = true)
    ∧ (∀ (now : LChar) (op : SessionOp) (st : State),
      (applyOp now op st).updated_at = st.updated_at
        ∨ (applyOp now op st).updated_at = now)
    ∧ (∀ (now : LChar) (i : Nat) (q : LChar) (rs : List SearchResult) (st : State),
      (applyOp now (.addSearchResults i q rs) st).updated_at = st.updated_at)
    ∧ (∀ (now : LChar) (i : Nat) (st : State),
      (applyOp now (.researchMarkCompleted i) st).updated_at = st.updated_at) :=
  ⟨runOps_updated_mono, applyOp_updated_at,
    fun _ _ _ _ _ => rfl, fun _ _ _ => rfl⟩

/-- Claim C7 counterexample: appending a search record to a section's
research (exactly what `_initial_search_and_summary` and `_reflection_loop`
do via `paragraph.research.add_search_results`) mutates an owned Section
but does NOT bump `updated_at`, refuting "bumped on every mutation of any
owned Section, including appending search records". -/
theorem claim_C7_counterexample :
    ((applyOp "B".data (.addSearchResults 0 "q".data [{ url := "u".data }])
        (State.mk [] [] [{}] [] false "A".data "A".data)).paragraphs
      ≠ (State.mk [] [] [{}] [] false "A".data "A".data).paragraphs)
    ∧ (applyOp "B".data (.addSearchResults 0 "q".data [{ url := "u".data }])
        (State.mk [] [] [{}] [] false "A".data "A".data)).updated_at
      = (State.mk [] [] [{}] [] false "A".data "A".data).updated_at := by
  exact ⟨by decide, rfl⟩

theorem claim_C7_witness :
    clockMono "A".data
      [("B".data, SessionOp.updateTimestamp), ("C".data, SessionOp.stateMarkCompleted)]
      = true
    ∧ lexLe "A".data
      (runOps [("B".data, SessionOp.updateTimestamp),
               ("C".data, SessionOp.stateMarkCompleted)]
        (State.mk [] [] [] [] false "A".data "A".data)).updated_at = true := by
  refine ⟨by decide, ?_⟩
  exact claim_C7_amended.1 _ (State.mk [] [] [] [] false "A".data "A".data) (by decide)

theorem rfind_bounds : ∀ l : LChar, -1 ≤ rfindSpace l ∧ rfindSpace l < l.length := by
  intro l
  induction l with
  | nil => simp [rfindSpace]
  | cons c cs ih =>
    obtain ⟨ih1, ih2⟩ := ih
    have hnn : (0 : Int) ≤ (cs.length : Int) := Int.natCast_nonneg _
    simp only [rfindSpace, List.length_cons]
    split
    · push_cast
      constructor <;> first | trivial | linarith
    · split
      · push_cast
        constructor <;> first | trivial | linarith
      · push_cast
        constructor <;> first | trivial | linarith

theorem rfind_get : ∀ l : LChar, 0 ≤ rfindSpace l →
    l.get? (rfindSpace l).toNat = some ' ' := by
  intro l
  induction l with
  | nil => intro h; simp [rfindSpace] at h
  | cons c cs ih =>
    intro h
    by_cases h0 : 0 ≤ rfindSpace cs
    · have e : rfindSpace (c :: cs) = rfindSpace cs + 1 := by simp [rfindSpace, h0]
      rw [e]
      have e2 : (rfindSpace cs + 1).toNat = (rfindSpace cs).toNat + 1 := by omega
      rw [e2, List.get?_cons_succ]
      exact ih h0
    · by_cases hc : c = ' '
      · have e : rfindSpace (c :: cs) = 0 := by simp [rfindSpace, h0, hc]
        rw [e]
        simp [hc]
      · have e : rfindSpace (c :: cs) = -1 := by simp [rfindSpace, h0, hc]
        rw [e] at h
        omega

theorem rfind_max : ∀ (l : LChar) (m : Nat), rfindSpace l < m → m < l.length →
    l.get? m ≠ some ' ' := by
  intro l
  induction l with
  | nil => intro m _ h; simp at h
  | cons c cs ih =>
    intro m h1 h2
    have hb := rfind_bounds cs
    simp only [List.length_cons] at h2
    by_cases h0 : 0 ≤ rfindSpace cs
    · have e : rfindSpace (c :: cs) = rfindSpace cs + 1 := by simp [rfindSpace, h0]
      rw [e] at h1
      match m with
      | 0 => omega
      | m' + 1 =>
        simp only [List.get?_cons_succ]
        exact ih m' (by push_cast at h1 ⊢; omega) (by omega)
    · by_cases hc : c = ' '
      · have e : rfindSpace (c :: cs) = 0 := by simp [rfindSpace, h0, hc]
        rw [e] at h1
        match m with
        | 0 => omega
        | m' + 1 =>
          simp only [List.get?_cons_succ]
          exact ih m' (by omega) (by omega)
      · have e : rfindSpace (c :: cs) = -1 := by simp [rfindSpace, h0, hc]
        match m with
        | 0 =>
          simp only [List.get?_cons_zero]
          intro hcontra
          exact hc (Option.some.inj hcontra)
        | m' + 1 =>
          simp only [List.get?_cons_succ]
          exact ih m' (by omega) (by omega)

theorem rfind_ge : ∀ (l : LChar) (j : Nat), l.get? j = some ' ' →
    (j : Int) ≤ rfindSpace l := by
  intro l
  induction l with
  | nil => intro j h; simp at h
  | cons c cs ih =>
    intro j h
    simp only [rfindSpace]
    match j, h with
    | 0, h =>
      simp only [List.get?_cons_zero] at h
      have hc : c = ' ' := Option.some.inj h
      split
      · omega
      · simp [hc]
    | j' + 1, h =>
      simp only [List.get?_cons_succ] at h
      have := ih j' h
      have h0 : 0 ≤ rfindSpace cs := by omega
      rw [if_pos h0]
      push_cast
      omega

theorem get?_take_of_lt : ∀ (l : LChar) (n m : Nat), m < n →
    (l.take n).get? m = l.get? m := by
  intro l
  induction l with
  | nil => intro n m _; simp
  | cons c cs ih =>
    intro n m h
    match n, h with
    | n' + 1, h =>
      match m with
      | 0 => simp
      | m' + 1 =>
        simp only [List.take_cons, List.get?_cons_succ]
        exact ih n' m' (by omega)

/-- Claim C6: `truncate_content(s, L)` returns a string no longer than
`L + 3` (`L` plus the ellipsis marker), returns strings of length at most
`L` unchanged, and cuts mid-word (at the hard limit) exactly when no space
of the truncated window lies strictly past the 80% point of the limit
(`5 * i > 4 * L`, the exact form of Python's `last_space > max_length *
0.8`); otherwise it cuts at the last space and appends the marker. -/
theorem claim_C6_truncate (content : LChar) (L : Nat) :
    (truncate_content content L).length ≤ L + 3
    ∧ (content.length ≤ L → truncate_content content L = content)
    ∧ (L < content.length →
        ((∀ i : Nat, i < L → content.get? i = some ' ' → 5 * i ≤ 4 * L) →
          truncate_content content L = content.take L ++ ['.', '.', '.'])
        ∧ (∀ j : Nat, j < L → content.get? j = some ' ' → 4 * L < 5 * j →
            (∀ m : Nat, j < m → m < L → content.get? m ≠ some ' ') →
            truncate_content content L = content.take j ++ ['.', '.', '.'])) := by
  have hTlen : ∀ h : L < content.length, (content.take L).length = L := by
    intro h
    simp [List.length_take]
    omega
  refine ⟨?_, ?_, ?_⟩
  · by_cases hlen : content.length ≤ L
    · simp only [truncate_content, if_pos hlen]
      omega
    · simp only [truncate_content, if_neg hlen]
      split
      · have h1 : ((content.take L).take (rfindSpace (content.take L)).toNat).length
            ≤ (content.take L).length := by
          simp [List.length_take]
        have h2 : (content.take L).length ≤ L := by simp [List.length_take]
        simp only [List.length_append, List.length_cons, List.length_nil]
        omega
      · have h2 : (content.take L).length ≤ L := by simp [List.length_take]
        simp only [List.length_append, List.length_cons, List.length_nil]
        omega
  · intro h
    simp [truncate_content, if_pos h]
  · intro hL
    have hTL : (content.take L).length = L := hTlen hL
    constructor
    · intro hno
      have hcond : ¬(4 * (L : Int) < 5 * rfindSpace (content.take L)) := by
        rcases le_or_lt 0 (rfindSpace (content.take L)) with h0 | h0
        · have hsp := rfind_get (content.take L) h0
          have hlt : (rfindSpace (content.take L)).toNat < L := by
            have := (rfind_bounds (content.take L)).2
            omega
          rw [get?_take_of_lt content L _ hlt] at hsp
          have := hno _ hlt hsp
          omega
        · intro hcon
          have hnn : (0 : Int) ≤ (L : Int) := Int.natCast_nonneg _
          linarith
      simp only [truncate_content, if_neg (by omega : ¬content.length ≤ L),
        if_neg hcond]
    · intro j hj hsp hbig hmax
      have hjT : (content.take L).get? j = some ' ' := by
        rw [get?_take_of_lt content L j hj]
        exact hsp
      have hge := rfind_ge (content.take L) j hjT
      have h0 : 0 ≤ rfindSpace (content.take L) := by omega
      have hle : rfindSpace (content.take L) ≤ (j : Int) := by
        by_contra hcon
        push_neg at hcon
        have hspr := rfind_get (content.take L) h0
        have hlt : (rfindSpace (content.take L)).toNat < L := by
          have := (rfind_bounds (content.take L)).2
          omega
        rw [get?_take_of_lt content L _ hlt] at hspr
        exact hmax _ (by omega) hlt hspr
      have heq : rfindSpace (content.take L) = (j : Int) := le_antisymm hle hge
      have hcond2 : 4 * (L : Int) < 5 * ((j : Nat) : Int) := by exact_mod_cast hbig
      simp only [truncate_content, if_neg (by omega : ¬content.length ≤ L), heq,
        if_pos hcond2]
      rw [List.take_take]
      congr 2
      simp only [Int.toNat_natCast, inf_eq_min]
      omega

theorem claim_C6_witness :
    ("aaaaaaaaa bcd".data.length ≤ 10 → False)
    ∧ truncate_content "aaaaaaaaa bcd".data 10 = "aaaaaaaaa...".data := by
  refine ⟨by decide, ?_⟩
  have h := (claim_C6_truncate "aaaaaaaaa bcd".data 10).2.2 (by decide)
  have h2 := h.2 9 (by decide) (by decide) (by decide)
    (by intro m h1 h2; interval_cases m <;> decide)
  rw [h2]
  rfl

theorem dropWhile_append_char (p : Char → Bool) :
    ∀ l1 l2 : LChar, List.dropWhile p (l1 ++ l2)
      = if (List.dropWhile p l1).isEmpty then List.dropWhile p l2
        else List.dropWhile p l1 ++ l2 := by
  intro l1
  induction l1 with
  | nil => intro l2; simp
  | cons c cs ih =>
    intro l2
    by_cases hc : p c
    · simp [List.dropWhile_cons, hc, ih]
    · simp [List.dropWhile_cons, hc]

theorem pyStrip_cons_of_not_ws (x : Char) (l : LChar) (hx : isSpacePy x = false) :
    ∃ t, pyStrip (x :: l) = x :: t := by
  simp only [pyStrip, List.dropWhile_cons, hx]
  simp only [Bool.false_eq_true, if_false, List.reverse_cons]
  rw [dropWhile_append_char]
  split
  · refine ⟨[], ?_⟩
    simp [List.dropWhile_cons, hx]
  · exact ⟨(List.dropWhile isSpacePy l.reverse).reverse, by simp⟩

/-- Claim C8 (amended): the processed formatter output, when the cleaned
text is non-empty, begins with `#` -- a heading marker of SOME level, not
necessarily level 1 (an output already starting with `#`, e.g. `##`, passes
through unchanged) -- and the default `# Search Report:` title line is
prepended exactly when the cleaned output does not start with `#`.  An
empty cleaned output raises (propagates as an error); no concluding section
is synthesized programmatically (that is delegated to the generation
prompt). -/
theorem claim_C8_amended (output : LChar) :
    ((pyStrip (mdCleanedOf output)).isEmpty = true →
      formatting_process_output output = .error "Empty output".data)
    ∧ ((pyStrip (mdCleanedOf output)).isEmpty = false →
      ∃ r, formatting_process_output output = .ok r
        ∧ ['#'].isPrefixOf r = true
        ∧ (['#'].isPrefixOf (pyStrip (mdCleanedOf output)) = true →
            r = pyStrip (mdCleanedOf output))
        ∧ (['#'].isPrefixOf (pyStrip (mdCleanedOf output)) = false →
            r = pyStrip ("# Search Report: ".data ++ mdCleanedOf output))) := by
  constructor
  · intro h
    simp only [formatting_process_output]
    rw [if_pos]
    exact h
  · intro h
    simp only [formatting_process_output]
    rw [if_neg (by simp [mdCleanedOf] at h ⊢; exact h)]
    by_cases hp : ['#'].isPrefixOf (pyStrip (mdCleanedOf output)) = true
    · refine ⟨pyStrip (mdCleanedOf output), ?_, hp, fun _ => rfl, fun hcon => ?_⟩
      · have hp2 := hp
        simp only [mdCleanedOf] at hp2
        simp [mdCleanedOf, hp2]
      · rw [hp] at hcon
        exact absurd hcon (by simp)
    · have hp' : ['#'].isPrefixOf (pyStrip (mdCleanedOf output)) = false := by
        simp only [Bool.not_eq_true] at hp
        exact hp
      refine ⟨pyStrip ("# Search Report: ".data ++ mdCleanedOf output), ?_, ?_,
        fun hcon => ?_, fun _ => rfl⟩
      · have hp2 := hp'
        simp only [mdCleanedOf] at hp2
        simp [mdCleanedOf, hp2]
      · obtain ⟨t, ht⟩ := pyStrip_cons_of_not_ws '#'
          (' ' :: ('S' :: ("earch Report: ".data ++ mdCleanedOf output))) (by decide)
        have : ('#' :: (' ' :: ('S' :: ("earch Report: ".data ++ mdCleanedOf output))))
            = "# Search Report: ".data ++ mdCleanedOf output := by rfl
        rw [← this, ht]
        simp [List.isPrefixOf]
      · rw [hp'] at hcon
        exact absurd hcon (by simp)

/-- Claim C8 counterexample: a model output beginning with a level-2
heading passes through `process_output` unchanged -- the document does not
open with a top-level (level-1) heading, no default title is prepended, and
no conclusion is synthesized. -/
theorem claim_C8_counterexample :
    formatting_process_output "## A".data = .ok "## A".data
    ∧ opensWithTopHeading "## A".data = false := ⟨rfl, rfl⟩

theorem claim_C8_witness :
    ((pyStrip (mdCleanedOf "   ".data)).isEmpty = true
      ∧ formatting_process_output "   ".data = .error "Empty output".data)
    ∧ ((pyStrip (mdCleanedOf "hello".data)).isEmpty = false
      ∧ ∃ r, formatting_process_output "hello".data = .ok r
          ∧ ['#'].isPrefixOf r = true) := by
  constructor
  · exact ⟨by rfl, (claim_C8_amended "   ".data).1 (by rfl)⟩
  · refine ⟨by rfl, ?_⟩
    obtain ⟨r, h1, h2, _, _⟩ := (claim_C8_amended "hello".data).2 (by rfl)
    exact ⟨r, h1, h2⟩

theorem add_search_results_proj : ∀ (results : List SearchResult) (r : Research)
    (q now : LChar),
    (r.add_search_results q results now).reflection_iteration = r.reflection_iteration
    ∧ (r.add_search_results q results now).is_finished = r.is_finished
    ∧ (r.add_search_results q results now).latest_summary = r.latest_summary := by
  intro results
  induction results with
  | nil => intro r q now; exact ⟨rfl, rfl, rfl⟩
  | cons x xs ih =>
    intro r q now
    have h := ih (r.add_search
      (Search.mk q x.url x.title x.content x.score now)) q now
    simp only [Research.add_search_results, List.foldl_cons] at *
    exact h

theorem firstSummary_mutate_in_range (summary : LChar) (st : State) (i : Nat)
    (now : LChar) (h : i < st.paragraphs.length) :
    (firstSummary_mutate summary st (i : Int) now).2
      = State.update_timestamp now
          (modifyResearch st i (fun r => { r with latest_summary := summary })) := by
  simp only [firstSummary_mutate]
  rw [if_pos ⟨Int.natCast_nonneg i, by exact_mod_cast h⟩]
  simp [Int.toNat_natCast]

theorem reflectionSummary_mutate_in_range (summary : LChar) (st : State) (i : Nat)
    (now : LChar) (h : i < st.paragraphs.length) :
    (reflectionSummary_mutate summary st (i : Int) now).2
      = State.update_timestamp now
          (modifyResearch st i (fun r =>
            ({ r with latest_summary := summary }).increment_reflection_iteration)) := by
  simp only [reflectionSummary_mutate]
  rw [if_pos ⟨Int.natCast_nonneg i, by exact_mod_cast h⟩]
  simp [Int.toNat_natCast]

theorem researchAt_update_timestamp (now : LChar) (st : State) (i : Nat) :
    researchAt (State.update_timestamp now st) i = researchAt st i := rfl

theorem initial_search_and_summary_facts (d : PassData) (st : State) (i : Nat)
    (h : i < st.paragraphs.length) :
    (initial_search_and_summary d st i).paragraphs.length = st.paragraphs.length
    ∧ (researchAt (initial_search_and_summary d st i) i).reflection_iteration
        = (researchAt st i).reflection_iteration
    ∧ (researchAt (initial_search_and_summary d st i) i).is_finished
        = (researchAt st i).is_finished := by
  have h1 : (modifyResearch st i
      (fun r => r.add_search_results d.query d.results d.tSearch)).paragraphs.length
      = st.paragraphs.length := modifyResearch_length st i _
  simp only [initial_search_and_summary]
  rw [firstSummary_mutate_in_range _ _ _ _ (by rw [h1]; exact h)]
  constructor
  · simp [State.update_timestamp, modifyResearch_length, h1]
  · rw [researchAt_update_timestamp,
      researchAt_modifyResearch _ _ _ (by rw [h1]; exact h),
      researchAt_modifyResearch _ _ _ h]
    exact ⟨(add_search_results_proj d.results (researchAt st i) d.query d.tSearch).1,
      (add_search_results_proj d.results (researchAt st i) d.query d.tSearch).2.1⟩

theorem reflection_pass_facts (d : PassData) (st : State) (i : Nat)
    (h : i < st.paragraphs.length) :
    (reflection_pass d st i).paragraphs.length = st.paragraphs.length
    ∧ (researchAt (reflection_pass d st i) i).reflection_iteration
        = (researchAt st i).reflection_iteration + 1
    ∧ (researchAt (reflection_pass d st i) i).is_finished
        = (researchAt st i).is_finished := by
  have h1 : (modifyResearch st i
      (fun r => r.add_search_results d.query d.results d.tSearch)).paragraphs.length
      = st.paragraphs.length := modifyResearch_length st i _
  simp only [reflection_pass]
  rw [reflectionSummary_mutate_in_range _ _ _ _ (by rw [h1]; exact h)]
  constructor
  · simp [State.update_timestamp, modifyResearch_length, h1]
  · rw [researchAt_update_timestamp,
      researchAt_modifyResearch _ _ _ (by rw [h1]; exact h),
      researchAt_modifyResearch _ _ _ h]
    simp only [Research.increment_reflection_iteration]
    exact ⟨by simp [(add_search_results_proj d.results (researchAt st i) d.query d.tSearch).1],
      (add_search_results_proj d.results (researchAt st i) d.query d.tSearch).2.1⟩

theorem reflection_stage_facts (data : Nat → PassData) (st : State) (i : Nat)
    (h : i < st.paragraphs.length) :
    ∀ k : Nat,
      (reflection_stage data st i k).paragraphs.length = st.paragraphs.length
      ∧ (researchAt (reflection_stage data st i k) i).reflection_iteration
          = (researchAt st i).reflection_iteration + (k : Int)
      ∧ (researchAt (reflection_stage data st i k) i).is_finished
          = (researchAt st i).is_finished := by
  intro k
  induction k with
  | zero => simp [reflection_stage]
  | succ k ih =>
    obtain ⟨ihl, ihi, ihf⟩ := ih
    have hp := reflection_pass_facts (data k) (reflection_stage data st i k) i
      (by rw [ihl]; exact h)
    obtain ⟨hl, hi2, hf2⟩ := hp
    refine ⟨?_, ?_, ?_⟩
    · simp only [reflection_stage]
      rw [hl, ihl]
    · simp only [reflection_stage]
      rw [hi2, ihi]
      push_cast
      ring
    · simp only [reflection_stage]
      rw [hf2, ihf]

/-- Claim C1: processing one section through the orchestrator with
`maxReflections = N` (collaborator calls abstracted as arbitrary
successful `PassData`) starting from a fresh research record gives, at the
moment the section completes, `reflection_iteration = N` and
`is_finished = true`; during the loop `is_finished` stays `false` (so it
transitions false to true exactly once, at `research.mark_completed()`
after the loop is exhausted) and `reflection_iteration` equals exactly the
number of completed passes, hence grows by one per pass and never exceeds
`N`. -/
theorem claim_C1_reflection_loop (init : PassData) (data : Nat → PassData)
    (N : Nat) (st : State) (i : Nat) (hi : i < st.paragraphs.length)
    (h0 : (researchAt st i).reflection_iteration = 0)
    (hf : (researchAt st i).is_finished = false) :
    (researchAt (process_paragraph init data N st i) i).reflection_iteration = (N : Int)
    ∧ (researchAt (process_paragraph init data N st i) i).is_finished = true
    ∧ (∀ k : Nat, k ≤ N →
        (researchAt (reflection_stage data (initial_search_and_summary init st i) i k) i).reflection_iteration
          = (k : Int)
        ∧ (researchAt (reflection_stage data (initial_search_and_summary init st i) i k) i).is_finished
          = false) := by
  obtain ⟨hl1, hi1, hf1⟩ := initial_search_and_summary_facts init st i hi
  have hstage := reflection_stage_facts data (initial_search_and_summary init st i) i
    (by rw [hl1]; exact hi)
  have hstageN := hstage N
  obtain ⟨hlN, hiN, hfN⟩ := hstageN
  refine ⟨?_, ?_, ?_⟩
  · simp only [process_paragraph]
    rw [researchAt_modifyResearch _ _ _ (by rw [hlN, hl1]; exact hi)]
    simp only [Research.mark_completed]
    rw [hiN, hi1, h0]
    ring
  · simp only [process_paragraph]
    rw [researchAt_modifyResearch _ _ _ (by rw [hlN, hl1]; exact hi)]
    rfl
  · intro k _
    obtain ⟨_, hik, hfk⟩ := hstage k
    constructor
    · rw [hik, hi1, h0]
      ring
    · rw [hfk, hf1, hf]

theorem claim_C1_witness :
    (0 < (State.mk [] [] [{}] [] false [] []).paragraphs.length)
    ∧ (researchAt (process_paragraph {} (fun _ => {}) 2
        (State.mk [] [] [{}] [] false [] []) 0) 0).reflection_iteration = (2 : Int)
    ∧ (researchAt (process_paragraph {} (fun _ => {}) 2
        (State.mk [] [] [{}] [] false [] []) 0) 0).is_finished = true := by
  have h := claim_C1_reflection_loop {} (fun _ => {}) 2
    (State.mk [] [] [{}] [] false [] []) 0 (by decide) (by rfl) (by rfl)
  exact ⟨by decide, h.1, h.2.1⟩

theorem dropWhile_head_false (p : Char → Bool) :
    ∀ (l : LChar) (x : Char) (t : LChar), l.dropWhile p = x :: t → p x = false := by
  intro l
  induction l with
  | nil => intro x t h; simp at h
  | cons c cs ih =>
    intro x t h
    by_cases hc : p c
    · rw [List.dropWhile_cons, if_pos hc] at h
      exact ih x t h
    · rw [List.dropWhile_cons, if_neg hc] at h
      obtain ⟨rfl, _⟩ := List.cons.inj h
      simpa using hc

theorem dropWhile_eq_self_of_head (p : Char → Bool) (l : LChar)
    (h : ∀ x t, l = x :: t → p x = false) : l.dropWhile p = l := by
  cases l with
  | nil => rfl
  | cons c cs => rw [List.dropWhile_cons, if_neg (by simp [h c cs rfl])]

theorem pyStrip_idem (l : LChar) : pyStrip (pyStrip l) = pyStrip l := by
  simp only [pyStrip]
  set A := l.dropWhile isSpacePy with hA
  set B := A.reverse.dropWhile isSpacePy with hB
  have h1 : B.reverse.dropWhile isSpacePy = B.reverse := by
    apply dropWhile_eq_self_of_head
    intro x t hx
    have hpre : B.reverse <+: A := by
      rw [show A = A.reverse.reverse from (List.reverse_reverse A).symm]
      exact List.reverse_prefix.mpr (List.dropWhile_suffix isSpacePy)
    obtain ⟨u, hu⟩ := hpre
    rw [hx] at hu
    exact dropWhile_head_false isSpacePy l x (t ++ u) (hu.trans hA).symm
  rw [h1, List.reverse_reverse]
  have h2 : B.dropWhile isSpacePy = B := by
    apply dropWhile_eq_self_of_head
    intro x t hx
    exact dropWhile_head_false isSpacePy A.reverse x t (hB.symm.trans hx)
  rw [h2]

theorem validateEntry_shape : ∀ (i : Nat) (j : Json) (e : Option (LChar × LChar)),
    validateEntry i j = some e →
    e = none ∨ ∃ t c, e = some (pyStrip t, pyStrip c) := by
  intro i j e h
  cases j with
  | obj kvs =>
    simp only [validateEntry] at h
    split at h
    · split at h
      · right
        exact ⟨_, _, (Option.some.inj h).symm⟩
      · right
        exact ⟨_, _, (Option.some.inj h).symm⟩
      · simp at h
    · split at h
      · right
        exact ⟨_, _, (Option.some.inj h).symm⟩
      · right
        exact ⟨_, _, (Option.some.inj h).symm⟩
      · simp at h
    · simp at h
  | null => left; simpa using (Option.some.inj h).symm
  | bool b => left; simpa using (Option.some.inj h).symm
  | num n => left; simpa using (Option.some.inj h).symm
  | str s => left; simpa using (Option.some.inj h).symm
  | arr xs => left; simpa using (Option.some.inj h).symm

theorem validateEntries_facts : ∀ (l : List Json) (i : Nat) (es : List (LChar × LChar)),
    validateEntries i l = some es →
    es.length ≤ l.length
    ∧ ∀ p ∈ es, pyStrip p.1 = p.1 ∧ pyStrip p.2 = p.2 := by
  intro l
  induction l with
  | nil =>
    intro i es h
    simp only [validateEntries] at h
    obtain rfl := Option.some.inj h
    exact ⟨by simp, by simp⟩
  | cons j js ih =>
    intro i es h
    simp only [validateEntries, Option.bind_eq_bind] at h
    cases he : validateEntry i j with
    | none => rw [he] at h; simp at h
    | some e =>
      rw [he] at h
      cases hr : validateEntries (i + 1) js with
      | none => rw [hr] at h; simp at h
      | some rest =>
        rw [hr] at h
        simp only [Option.some_bind] at h
        obtain rfl := Option.some.inj h
        obtain ⟨hlen, hmem⟩ := ih (i + 1) rest hr
        rcases validateEntry_shape i j e he with rfl | ⟨t, c, rfl⟩
        · exact ⟨by simp; omega, by simpa using hmem⟩
        · refine ⟨by simp; omega, ?_⟩
          intro p hp
          simp only [List.mem_cons] at hp
          rcases hp with rfl | hp
          · exact ⟨pyStrip_idem t, pyStrip_idem c⟩
          · exact hmem p hp

/-- Claim C3 (amended): `ReportStructureNode.process_output` returns the
deterministic fixed two-entry skeleton ("Overview", "Detailed Analysis")
parameterized by the query on every parse or validation failure; when the
cleaned output parses to a JSON list whose entries validate, it returns the
validated entries: each returned title and content is the trimmed original,
and no more entries are returned than the parsed list holds.  The original
claim's guarantees that the result is non-empty, capped at the configured
maximum number of paragraphs, and free of empty titles/contents after
trimming do NOT hold (see the counterexample). -/
theorem claim_C3_structure_amended (query output : LChar) :
    (reportStructure_parsed output = none →
      reportStructure_process_output query output = structureFallback query)
    ∧ (∀ l : List Json, reportStructure_parsed output = some l →
        validateEntries 0 l = none →
        reportStructure_process_output query output = structureFallback query)
    ∧ (∀ (l : List Json) (es : List (LChar × LChar)),
        reportStructure_parsed output = some l →
        validateEntries 0 l = some es →
        reportStructure_process_output query output = es
        ∧ es.length ≤ l.length
        ∧ ∀ p ∈ es, pyStrip p.1 = p.1 ∧ pyStrip p.2 = p.2) := by
  refine ⟨?_, ?_, ?_⟩
  · intro h
    simp only [reportStructure_process_output]
    rw [h]
  · intro l h1 h2
    simp only [reportStructure_process_output]
    rw [h1]
    show (match validateEntries 0 l with
      | some es => es
      | none => structureFallback query) = structureFallback query
    rw [h2]
  · intro l es h1 h2
    refine ⟨?_, (validateEntries_facts l 0 es h2).1, (validateEntries_facts l 0 es h2).2⟩
    simp only [reportStructure_process_output]
    rw [h1]
    show (match validateEntries 0 l with
      | some es => es
      | none => structureFallback query) = es
    rw [h2]

theorem claim_C3_witness :
    reportStructure_parsed "[\x7b\"title\": \" A \", \"content\": \"b\"\x7d]".data
      = some [Json.obj [("title".data, Json.str " A ".data),
                        ("content".data, Json.str "b".data)]]
    ∧ validateEntries 0 [Json.obj [("title".data, Json.str " A ".data),
                        ("content".data, Json.str "b".data)]]
      = some [("A".data, "b".data)]
    ∧ reportStructure_process_output "q".data
        "[\x7b\"title\": \" A \", \"content\": \"b\"\x7d]".data
      = [("A".data, "b".data)] := by
  refine ⟨by rfl, by rfl, ?_⟩
  exact ((claim_C3_structure_amended "q".data
    "[\x7b\"title\": \" A \", \"content\": \"b\"\x7d]".data).2.2 _ _ (by rfl) (by rfl)).1

/-- Claim C3 counterexample: the model output `[{"title": " "}]` parses and
validates to the single entry `("", "")` -- a non-skeleton result whose
title and content are empty after trimming, refuting "every title and
content non-empty after trimming"; and seven entries survive validation
unchanged even though the configured maximum (`Config.max_paragraphs = 6`)
is never consulted, refuting "length at most the configured maximum". -/
theorem claim_C3_counterexample :
    reportStructure_process_output "q".data "[\x7b\"title\": \" \"\x7d]".data
      = [(([] : LChar), ([] : LChar))]
    ∧ (reportStructure_process_output "q".data
        "[\x7b\x7d,\x7b\x7d,\x7b\x7d,\x7b\x7d,\x7b\x7d,\x7b\x7d,\x7b\x7d]".data).length
      = 7 := ⟨rfl, rfl⟩

theorem isPrefixOf_self_append : ∀ a b : LChar, a.isPrefixOf (a ++ b) = true := by
  intro a
  induction a with
  | nil => intro b; simp [List.isPrefixOf]
  | cons c cs ih => intro b; simp [List.isPrefixOf, ih]

theorem hashPrefix_mono : ∀ l : LChar, (['#'].isPrefixOf l) = false →
    ("## ".data.isPrefixOf l) = false := by
  intro l h
  cases l with
  | nil => rfl
  | cons x xs =>
    simp only [List.isPrefixOf, Bool.and_eq_false_iff] at h ⊢
    rcases h with h | h
    · left; exact h
    · simp at h

theorem filter_blocks (entries : List (LChar × LChar))
    (hE : ∀ p ∈ entries, (['#'].isPrefixOf p.2) = false) :
    ((entries.map (fun p => if p.2.isEmpty then []
      else ["## ".data ++ p.1, [], p.2, [], "---".data, []])).flatten).filter
        (fun l => "## ".data.isPrefixOf l)
    = (entries.filter (fun p => !p.2.isEmpty)).map (fun p => "## ".data ++ p.1) := by
  induction entries with
  | nil => rfl
  | cons p ps ih =>
    have hp := hE p (by simp)
    have hps : ∀ q ∈ ps, (['#'].isPrefixOf q.2) = false := by
      intro q hq
      exact hE q (by simp [hq])
    have hprop : ¬("## ".data <+: p.2) := by
      intro hcon
      have hb : ("## ".data.isPrefixOf p.2) = true := List.isPrefixOf_iff_prefix.mpr hcon
      rw [hashPrefix_mono p.2 hp] at hb
      exact Bool.false_ne_true hb
    simp only [List.map_cons, List.flatten_cons, List.filter_append]
    rw [ih hps]
    by_cases he : p.2.isEmpty
    · rw [if_pos he]
      simp [he]
    · rw [if_neg he]
      have e1 : ¬("## ".data <+: ([] : LChar)) := by decide
      have e2 : ¬("## ".data <+: "---".data) := by decide
      have e3 : ("## ".data <+: ("## ".data ++ p.1)) := ⟨p.1, rfl⟩
      simp [List.filter_cons, e1, e2, e3, hprop, he]

/-- Claim C4 (amended): when model-based report formatting fails its
validation, the error propagates out of `_generate_final_report` -- the
deterministic fallback formatter exists (`format_report_manually`) but is
never invoked by the agent.  The fallback itself, when called on entries
whose titles and contents are newline-free and whose contents do not start
with `#`, produces a document that starts with a top-level heading, whose
level-2 headings are exactly one per input title WITH NON-EMPTY CONTENT, in
input order (empty-content sections get no heading), plus a synthesized
`# Conclusion` heading when the input has more than one section. -/
theorem claim_C4_formatting_amended (entries : List (LChar × LChar)) (title : LChar)
    (hT : '\n' ∉ title)
    (hE : ∀ p ∈ entries, '\n' ∉ p.1 ∧ '\n' ∉ p.2 ∧ (['#'].isPrefixOf p.2) = false) :
    (∀ (e now : LChar) (st : State),
      generate_final_report (Except.error e) now st = Except.error e)
    ∧ (linesOf (format_report_manually entries title)).head?
        = some ("# ".data ++ title)
    ∧ (linesOf (format_report_manually entries title)).filter
        (fun l => "## ".data.isPrefixOf l)
        = (entries.filter (fun p => !p.2.isEmpty)).map (fun p => "## ".data ++ p.1)
    ∧ (1 < entries.length → "# Conclusion".data ∈ linesOf (format_report_manually entries title)) := by
  have hlines : linesOf (format_report_manually entries title)
      = (["# ".data ++ title, [], "---".data, []]
          ++ (entries.map (fun p => if p.2.isEmpty then []
              else ["## ".data ++ p.1, [], p.2, [], "---".data, []])).flatten
          ++ (if 1 < entries.length then ["# Conclusion".data, [], "---".data, []]
              else ([] : List LChar))) := by
    simp only [linesOf, format_report_manually]
    apply List.splitOn_intercalate
    · intro l hl
      simp only [List.mem_append] at hl
      rcases hl with (hl | hl) | hl
      · simp only [List.mem_cons] at hl
        rcases hl with rfl | rfl | rfl | hl
        · simp only [List.mem_append]
          rintro (h | h)
          · simp at h
          · exact hT h
        · simp
        · decide
        · simp at hl
          subst hl
          simp
      · rw [List.mem_flatten] at hl
        obtain ⟨blk, hblk, hlblk⟩ := hl
        rw [List.mem_map] at hblk
        obtain ⟨p, hp, rfl⟩ := hblk
        obtain ⟨h1, h2, _⟩ := hE p hp
        by_cases he : p.2.isEmpty
        · rw [if_pos he] at hlblk
          simp at hlblk
        · rw [if_neg he] at hlblk
          simp only [List.mem_cons] at hlblk
          rcases hlblk with rfl | rfl | rfl | rfl | rfl | hl
          · simp only [List.mem_append]
            rintro (h | h)
            · simp at h
            · exact h1 h
          · simp
          · exact h2
          · simp
          · decide
          · simp at hl
            subst hl
            simp
      · split at hl
        · simp only [List.mem_cons] at hl
          rcases hl with rfl | rfl | rfl | hl
          · decide
          · simp
          · decide
          · simp at hl
            subst hl
            simp
        · simp at hl
    · simp
  refine ⟨fun _ _ _ => rfl, ?_, ?_, ?_⟩
  · rw [hlines]
    rfl
  · rw [hlines]
    simp only [List.filter_append]
    rw [filter_blocks entries (fun p hp => (hE p hp).2.2)]
    have hhead : (["# ".data ++ title, [], "---".data, ([] : LChar)]).filter
        (fun l => "## ".data.isPrefixOf l) = [] := by
      simp only [List.filter_cons]
      have : ("## ".data.isPrefixOf ("# ".data ++ title)) = false := by
        simp [List.isPrefixOf]
      simp [this, List.filter_nil]
    rw [hhead]
    have hconc : ((if 1 < entries.length then ["# Conclusion".data, [], "---".data, []]
        else ([] : List LChar))).filter (fun l => "## ".data.isPrefixOf l) = [] := by
      split
      · decide
      · rfl
    rw [hconc]
    simp
  · intro hgt
    rw [hlines]
    simp only [List.mem_append]
    right
    rw [if_pos hgt]
    simp

/-- Claim C4 counterexample: (1) a model-formatting failure propagates out
of `_generate_final_report` as an error -- the fallback formatter is not
used ("whenever model-based report formatting fails its validation, the
fallback formatter is used" is false); (2) the fallback, when called,
omits the heading of a section whose content is empty ("one heading per
input title" is false). -/
theorem claim_C4_counterexample :
    generate_final_report (Except.error "Empty output".data) "T".data
        (State.mk [] [] [] [] false [] [])
      = Except.error "Empty output".data
    ∧ containsSub "## B".data
        (format_report_manually [("A".data, ([] : LChar)), ("B".data, "x".data)]
          "Search Report".data) = true
    ∧ containsSub "## A".data
        (format_report_manually [("A".data, ([] : LChar)), ("B".data, "x".data)]
          "Search Report".data) = false := ⟨rfl, by decide, by decide⟩

theorem claim_C4_witness :
    (linesOf (format_report_manually [("A".data, "x".data), ("B".data, "y".data)]
        "Search Report".data)).head? = some ("# Search Report".data)
    ∧ (linesOf (format_report_manually [("A".data, "x".data), ("B".data, "y".data)]
        "Search Report".data)).filter (fun l => "## ".data.isPrefixOf l)
      = [("## A".data), ("## B".data)]
    ∧ "# Conclusion".data ∈ linesOf (format_report_manually
        [("A".data, "x".data), ("B".data, "y".data)] "Search Report".data) := by
  have h := claim_C4_formatting_amended [("A".data, "x".data), ("B".data, "y".data)]
    "Search Report".data (by decide) (by decide)
  exact ⟨h.2.1, by rw [h.2.2.1]; rfl, h.2.2.2 (by decide)⟩

theorem skipWs_cons (c : Char) (cs : LChar) (h : isJsonWs c = false) :
    skipWs (c :: cs) = c :: cs := by
  simp [skipWs, List.dropWhile_cons, h]

theorem parseStrBody_append : ∀ (s rest : LChar), SafeStr s = true →
    parseStrBody (s ++ '"' :: rest) = some (s, rest) := by
  intro s
  induction s with
  | nil => intro rest _; simp [parseStrBody]
  | cons c cs ih =>
    intro rest hs
    simp only [SafeStr, List.all_cons, Bool.and_eq_true] at hs
    obtain ⟨hc, hcs⟩ := hs
    simp only [safeChar, Bool.and_eq_true, Bool.not_eq_true', decide_eq_true_eq] at hc
    obtain ⟨⟨h1, h2⟩, h3⟩ := hc
    have h1' : ¬(c = '"') := of_decide_eq_false h1
    have h2' : ¬(c = '\\') := of_decide_eq_false h2
    simp only [List.cons_append, parseStrBody, if_neg h1', if_neg h2',
      if_neg (by omega : ¬c.toNat < 32), List.append_eq]
    rw [ih rest hcs]

theorem takeWhile_append_all (p : Char → Bool) :
    ∀ (ds rest : LChar), (∀ c ∈ ds, p c = true) →
      (ds ++ rest).takeWhile p = ds ++ rest.takeWhile p := by
  intro ds
  induction ds with
  | nil => intro rest _; simp
  | cons c cs ih =>
    intro rest h
    have hc : p c = true := h c (by simp)
    simp only [List.cons_append, List.takeWhile_cons, hc, if_pos]
    rw [ih rest (fun x hx => h x (by simp [hx]))]

theorem dropWhile_append_all (p : Char → Bool) :
    ∀ (ds rest : LChar), (∀ c ∈ ds, p c = true) →
      (ds ++ rest).dropWhile p = rest.dropWhile p := by
  intro ds
  induction ds with
  | nil => intro rest _; simp
  | cons c cs ih =>
    intro rest h
    have hc : p c = true := h c (by simp)
    simp only [List.cons_append, List.dropWhile_cons, hc, if_pos]
    exact ih rest (fun x hx => h x (by simp [hx]))

theorem takeWhile_nil_of_head (p : Char → Bool) (rest : LChar)
    (h : ∀ c t, rest = c :: t → p c = false) : rest.takeWhile p = [] := by
  cases rest with
  | nil => rfl
  | cons c t => simp [List.takeWhile_cons, h c t rfl]

theorem dropWhile_self_of_head (p : Char → Bool) (rest : LChar)
    (h : ∀ c t, rest = c :: t → p c = false) : rest.dropWhile p = rest := by
  cases rest with
  | nil => rfl
  | cons c t => simp [List.dropWhile_cons, h c t rfl]

theorem digitsF_eq_digits : ∀ (f n : Nat), n < f → digitsF f n = Nat.digits 10 n := by
  intro f
  induction f with
  | zero => intro n h; omega
  | succ f ih =>
    intro n h
    by_cases hn : n = 0
    · simp [digitsF, hn]
    · rw [show digitsF (f + 1) n = n % 10 :: digitsF f (n / 10) from by
        simp [digitsF, hn]]
      rw [ih (n / 10) (by omega)]
      rw [Nat.digits_def' (by norm_num : 1 < 10) (by omega : 0 < n)]

theorem renderNat_all_digits (n : Nat) : ∀ c ∈ renderNat n, c.isDigit = true := by
  intro c hc
  simp only [renderNat] at hc
  split at hc
  · simp at hc
    subst hc
    decide
  · simp only [List.mem_reverse, List.mem_map] at hc
    obtain ⟨d, hd, rfl⟩ := hc
    next hn =>
      rw [digitsF_eq_digits (n + 1) n (by omega)] at hd
      have hlt : d < 10 := Nat.digits_lt_base (by norm_num) hd
      interval_cases d <;> decide

theorem foldr_digits_ofDigits : ∀ ds : List Nat,
    (∀ d ∈ ds, d < 10) →
    List.foldr (fun c a => a * 10 + digitVal c) 0 (ds.map digitChar)
      = Nat.ofDigits 10 ds := by
  intro ds
  induction ds with
  | nil => intro _; simp [Nat.ofDigits]
  | cons d t ih =>
    intro h
    have hd : d < 10 := h d (by simp)
    simp only [List.map_cons, List.foldr_cons, Nat.ofDigits_cons]
    rw [ih (fun x hx => h x (by simp [hx]))]
    have : digitVal (digitChar d) = d := by interval_cases d <;> decide
    rw [this]
    ring

theorem foldl_renderNat (n : Nat) :
    (renderNat n).foldl (fun a c => a * 10 + digitVal c) 0 = n := by
  by_cases hn : n = 0
  · subst hn
    rfl
  · rw [show renderNat n = ((Nat.digits 10 n).map digitChar).reverse from by
      simp [renderNat, hn, digitsF_eq_digits (n + 1) n (by omega)]]
    rw [List.foldl_reverse]
    have := foldr_digits_ofDigits (Nat.digits 10 n)
      (fun d hd => Nat.digits_lt_base (by norm_num) hd)
    simp only [this, Nat.ofDigits_digits]

theorem renderNat_ne_nil (n : Nat) : renderNat n ≠ [] := by
  simp only [renderNat]
  split
  · simp
  · next hn =>
    rw [digitsF_eq_digits (n + 1) n (by omega)]
    simp [Nat.digits_ne_nil_iff_ne_zero.mpr hn]

theorem renderNat_head_zero (n : Nat) :
    (renderNat n).head? = some '0' → n = 0 := by
  intro h
  by_contra hn
  rw [show renderNat n = ((Nat.digits 10 n).map digitChar).reverse from by
    simp [renderNat, hn, digitsF_eq_digits (n + 1) n (by omega)]] at h
  rw [List.head?_reverse, List.getLast?_map] at h
  have hne : Nat.digits 10 n ≠ [] := Nat.digits_ne_nil_iff_ne_zero.mpr hn
  rw [List.getLast?_eq_getLast _ hne] at h
  simp at h
  have hlast : (Nat.digits 10 n).getLast hne ≠ 0 := Nat.getLast_digit_ne_zero 10 hn
  have hlt : (Nat.digits 10 n).getLast hne < 10 :=
    Nat.digits_lt_base (by norm_num) (List.getLast_mem hne)
  set d := (Nat.digits 10 n).getLast hne with hd
  interval_cases d
  all_goals first
    | exact hlast rfl
    | exact absurd h (by decide)

theorem renderNat_len_one_of_lt_ten (n : Nat) (h : n < 10) :
    (renderNat n).length = 1 := by
  by_cases hn : n = 0
  · simp [renderNat, hn]
  · rw [show renderNat n = ((Nat.digits 10 n).map digitChar).reverse from by
      simp [renderNat, hn, digitsF_eq_digits (n + 1) n (by omega)]]
    rw [Nat.digits_def' (by norm_num : 1 < 10) (by omega : 0 < n)]
    rw [show n / 10 = 0 from by omega]
    simp

theorem numBoundary_head (rest : LChar) (hb : numBoundary rest = true) :
    ∀ c t, rest = c :: t → c.isDigit = false ∧ ¬(c = '.') ∧ ¬(c = 'e') ∧ ¬(c = 'E') := by
  intro c t hrest
  subst hrest
  simp only [numBoundary, Bool.and_eq_true, Bool.not_eq_true'] at hb
  refine ⟨hb.1.1.1, ?_, ?_, ?_⟩
  · simpa using hb.1.1.2
  · simpa using hb.1.2
  · simpa using hb.2

theorem floatFollows_of_numBoundary (rest : LChar) (hb : numBoundary rest = true) :
    floatFollows rest = false := by
  cases rest with
  | nil => rfl
  | cons c t =>
    obtain ⟨_, h1, h2, h3⟩ := numBoundary_head (c :: t) hb c t rfl
    simp [floatFollows, h1, h2, h3]

theorem parseNatNum_render (n : Nat) (rest : LChar) (hb : numBoundary rest = true) :
    parseNatNum (renderNat n ++ rest) = some (n, rest) := by
  have hdig : ∀ c ∈ renderNat n, c.isDigit = true := renderNat_all_digits n
  have hh : ∀ c t, rest = c :: t → Char.isDigit c = false :=
    fun c t ht => (numBoundary_head rest hb c t ht).1
  have htake : (renderNat n ++ rest).takeWhile Char.isDigit = renderNat n := by
    rw [takeWhile_append_all Char.isDigit _ _ hdig, takeWhile_nil_of_head Char.isDigit rest hh]
    simp
  have hdrop : (renderNat n ++ rest).dropWhile Char.isDigit = rest := by
    rw [dropWhile_append_all Char.isDigit _ _ hdig, dropWhile_self_of_head Char.isDigit rest hh]
  simp only [parseNatNum, htake, hdrop]
  rw [if_neg (by simp [renderNat_ne_nil n]), if_neg ?_, if_neg ?_]
  · rw [foldl_renderNat]
  · rw [floatFollows_of_numBoundary rest hb]
    simp
  · simp only [Bool.and_eq_true, decide_eq_true_eq]
    rintro ⟨hlen, hzero⟩
    have h0 : n = 0 := renderNat_head_zero n (by simpa using hzero)
    subst h0
    simp [renderNat] at hlen

theorem parsesTo_str (s : LChar) (hs : SafeStr s = true) :
    ParsesTo (renderStr s) (.str s) := by
  intro rest fuel hlen hnum
  match fuel, hlen with
  | f + 1, hlen =>
    simp only [renderStr, List.cons_append, parseVal]
    rw [skipWs_cons _ _ (by decide)]
    simp only [if_neg (by decide : ¬('"' = lbrace)), if_neg (by decide : ¬('"' = '[')),
      if_pos (rfl : ('"' : Char) = '"')]
    rw [show s ++ ['"'] ++ rest = s ++ '"' :: rest from by simp]
    rw [parseStrBody_append s rest hs]
    simp

theorem parsesTo_null : ParsesTo ['n', 'u', 'l', 'l'] .null := by
  intro rest fuel hlen hnum
  match fuel, hlen with
  | f + 1, hlen =>
    simp only [List.cons_append, List.nil_append, parseVal]
    rw [skipWs_cons _ _ (by decide)]
    simp only [if_neg (by decide : ¬('n' = lbrace)), if_neg (by decide : ¬('n' = '[')),
      if_neg (by decide : ¬('n' = '"')), if_neg (by decide : ¬('n' = 't')),
      if_neg (by decide : ¬('n' = 'f')), if_pos (rfl : ('n' : Char) = 'n')]
    simp

theorem parsesTo_bool (b : Bool) : ParsesTo (renderBool b) (.bool b) := by
  intro rest fuel hlen hnum
  match fuel, hlen with
  | f + 1, hlen =>
    cases b with
    | true =>
      simp only [renderBool, List.cons_append, List.nil_append, parseVal]
      rw [skipWs_cons _ _ (by decide)]
      simp only [if_neg (by decide : ¬('t' = lbrace)), if_neg (by decide : ¬('t' = '[')),
        if_neg (by decide : ¬('t' = '"')), if_pos (rfl : ('t' : Char) = 't')]
      simp
    | false =>
      simp only [renderBool, List.cons_append, List.nil_append, parseVal]
      rw [skipWs_cons _ _ (by decide)]
      simp only [if_neg (by decide : ¬('f' = lbrace)), if_neg (by decide : ¬('f' = '[')),
        if_neg (by decide : ¬('f' = '"')), if_neg (by decide : ¬('f' = 't')),
        if_pos (rfl : ('f' : Char) = 'f')]
      simp

theorem digit_head_facts (c : Char) (hc : c.isDigit = true) :
    isJsonWs c = false ∧ ¬(c = lbrace) ∧ ¬(c = '[') ∧ ¬(c = '"') ∧ ¬(c = 't')
      ∧ ¬(c = 'f') ∧ ¬(c = 'n') ∧ ¬(c = '-') := by
  refine ⟨?_, ?_, ?_, ?_, ?_, ?_, ?_, ?_⟩
  all_goals first
    | (intro h; rw [h] at hc; exact absurd hc (by decide))
    | (by_cases h : isJsonWs c = false
       · exact h
       · exfalso
         simp only [Bool.not_eq_false] at h
         simp only [isJsonWs, Bool.or_eq_true, decide_eq_true_eq] at h
         rcases h with ((h | h) | h) | h <;> (rw [h] at hc; exact absurd hc (by decide)))

theorem parsesTo_natNum (n : Nat) : ParsesTo (renderNat n) (.num (n : Int)) := by
  intro rest fuel hlen hnum
  match fuel, hlen with
  | f + 1, hlen =>
    obtain ⟨c, cs, hcons⟩ : ∃ c cs, renderNat n = c :: cs := by
      cases h : renderNat n with
      | nil => exact absurd h (renderNat_ne_nil n)
      | cons c cs => exact ⟨c, cs, rfl⟩
    have hc : c.isDigit = true := renderNat_all_digits n c (by rw [hcons]; simp)
    obtain ⟨hws, h1, h2, h3, h4, h5, h6, h7⟩ := digit_head_facts c hc
    rw [hcons]
    simp only [List.cons_append, parseVal]
    rw [skipWs_cons _ _ hws]
    simp only [if_neg h1, if_neg h2, if_neg h3, if_neg h4, if_neg h5, if_neg h6,
      if_neg h7, if_pos hc]
    rw [show c :: (cs ++ rest) = renderNat n ++ rest from by rw [hcons]; simp]
    rw [parseNatNum_render n rest hnum]

theorem parsesTo_int (i : Int) : ParsesTo (renderInt i) (.num i) := by
  cases i with
  | ofNat n => exact parsesTo_natNum n
  | negSucc m =>
    intro rest fuel hlen hnum
    match fuel, hlen with
    | f + 1, hlen =>
      simp only [renderInt, List.cons_append, parseVal]
      rw [skipWs_cons _ _ (by decide)]
      simp only [if_neg (by decide : ¬('-' = lbrace)), if_neg (by decide : ¬('-' = '[')),
        if_neg (by decide : ¬('-' = '"')), if_neg (by decide : ¬('-' = 't')),
        if_neg (by decide : ¬('-' = 'f')), if_neg (by decide : ¬('-' = 'n')),
        if_pos (rfl : ('-' : Char) = '-')]
      rw [parseNatNum_render (m + 1) rest hnum]
      have hcast : -((m + 1 : Nat) : Int) = Int.negSucc m := by
        rw [Int.negSucc_eq]
        push_cast
        ring
      show some (Json.num (-((m + 1 : Nat) : Int)), rest)
          = some (Json.num (Int.negSucc m), rest)
      rw [hcast]

theorem parsesTo_optInt (x : Option Int) :
    ParsesTo (renderOptInt x) (match x with | none => Json.null | some i => Json.num i) := by
  cases x with
  | none => exact parsesTo_null
  | some i => exact parsesTo_int i

theorem valHead_elim (l : LChar) (h : valHead l = true) :
    ∃ c cs, l = c :: cs ∧ isJsonWs c = false ∧ ¬(c = ']') ∧ ¬(c = rbrace)
      ∧ ¬(c = ',') := by
  cases l with
  | nil => exact absurd h (by simp [valHead])
  | cons c cs =>
    simp only [valHead, Bool.and_eq_true, Bool.not_eq_true'] at h
    obtain ⟨⟨⟨h1, h2⟩, h3⟩, h4⟩ := h
    exact ⟨c, cs, rfl, h1, of_decide_eq_false h2, of_decide_eq_false h3,
      of_decide_eq_false h4⟩

theorem valHead_renderStr (s : LChar) : valHead (renderStr s) = true := rfl

theorem valHead_renderBool (b : Bool) : valHead (renderBool b) = true := by
  cases b <;> rfl

theorem valHead_of_digit (c : Char) (hc : c.isDigit = true) (l : LChar) :
    valHead (c :: l) = true := by
  obtain ⟨hws, _, _, _, _, _, _, _⟩ := digit_head_facts c hc
  have e1 : decide (c = ']') = false := by
    rw [decide_eq_false_iff_not]
    intro h
    rw [h] at hc
    exact absurd hc (by decide)
  have e2 : decide (c = rbrace) = false := by
    rw [decide_eq_false_iff_not]
    intro h
    rw [h] at hc
    exact absurd hc (by decide)
  have e3 : decide (c = ',') = false := by
    rw [decide_eq_false_iff_not]
    intro h
    rw [h] at hc
    exact absurd hc (by decide)
  simp [valHead, hws, e1, e2, e3]

theorem valHead_renderInt (i : Int) : valHead (renderInt i) = true := by
  cases i with
  | ofNat n =>
    obtain ⟨c, cs, hcons⟩ : ∃ c cs, renderNat n = c :: cs := by
      cases h : renderNat n with
      | nil => exact absurd h (renderNat_ne_nil n)
      | cons c cs => exact ⟨c, cs, rfl⟩
    have hc : c.isDigit = true := renderNat_all_digits n c (by rw [hcons]; simp)
    show valHead (renderNat n) = true
    rw [hcons]
    exact valHead_of_digit c hc cs
  | negSucc m => rfl

theorem valHead_renderOptInt (x : Option Int) : valHead (renderOptInt x) = true := by
  cases x with
  | none => rfl
  | some i => exact valHead_renderInt i

theorem valHead_renderObj (fields : List LChar) :
    valHead (renderObj fields) = true := by
  cases fields <;> rfl

theorem valHead_renderArr (items : List LChar) :
    valHead (renderArr items) = true := by
  cases items <;> rfl

theorem numBoundary_renderTail (xs : List LChar) (c : Char) (rest : LChar)
    (hc : (!c.isDigit && !(c = '.') && !(c = 'e') && !(c = 'E')) = true) :
    numBoundary (renderTail xs ++ c :: rest) = true := by
  cases xs with
  | nil => simpa [renderTail, numBoundary] using hc
  | cons f fs => simp [renderTail, numBoundary]

theorem parseElemsTail_render :
    ∀ (pairs : List (LChar × Json)) (rest : LChar) (fuel : Nat),
      (∀ p ∈ pairs, ParsesTo p.1 p.2 ∧ valHead p.1 = true) →
      (renderTail (pairs.map Prod.fst)).length + 1 + rest.length < fuel →
      numBoundary rest = true →
      parseElemsTail fuel (renderTail (pairs.map Prod.fst) ++ ']' :: rest)
        = some (pairs.map Prod.snd, rest) := by
  intro pairs
  induction pairs with
  | nil =>
    intro rest fuel hp hlen hnum
    match fuel, hlen with
    | f + 1, hlen =>
      simp only [List.map_nil, renderTail, List.nil_append, parseElemsTail]
      rw [skipWs_cons _ _ (by decide)]
      simp
  | cons pv ps ih =>
    obtain ⟨r, v⟩ := pv
    intro rest fuel hp hlen hnum
    obtain ⟨hr, hvh⟩ := hp (r, v) (by simp)
    match fuel, hlen with
    | f + 1, hlen =>
      simp only [List.map_cons, renderTail, List.length_cons, List.length_append] at hlen
      have hlen2 : r.length + (renderTail (ps.map Prod.fst) ++ ']' :: rest).length < f := by
        simp only [List.length_append, List.length_cons]
        omega
      have hlen3 : (renderTail (ps.map Prod.fst)).length + 1 + rest.length < f := by
        omega
      have hnum2 : numBoundary (renderTail (ps.map Prod.fst) ++ ']' :: rest) = true :=
        numBoundary_renderTail _ _ _ (by decide)
      simp only [List.map_cons, renderTail, List.cons_append, parseElemsTail]
      rw [skipWs_cons _ _ (by decide)]
      simp only [if_neg (by decide : ¬(',' = ']')), if_pos (rfl : (',' : Char) = ',')]
      rw [show r ++ renderTail (ps.map Prod.fst) ++ ']' :: rest
            = r ++ (renderTail (ps.map Prod.fst) ++ ']' :: rest) from by simp]
      rw [hr _ f hlen2 hnum2]
      simp only [if_true]
      rw [ih rest f (fun p hq => hp p (by simp [hq])) hlen3 hnum]

theorem parsesTo_arr (pairs : List (LChar × Json))
    (hp : ∀ p ∈ pairs, ParsesTo p.1 p.2 ∧ valHead p.1 = true) :
    ParsesTo (renderArr (pairs.map Prod.fst)) (.arr (pairs.map Prod.snd)) := by
  intro rest fuel hlen hnum
  cases pairs with
  | nil =>
    match fuel, hlen with
    | f + 1, hlen =>
      simp only [List.map_nil, renderArr, List.cons_append, parseVal]
      rw [skipWs_cons _ _ (by decide)]
      simp only [if_neg (by decide : ¬('[' = lbrace)), if_pos (rfl : ('[' : Char) = '[')]
      rw [skipWs_cons _ _ (by decide)]
      simp
  | cons pv ps =>
    obtain ⟨r, v⟩ := pv
    obtain ⟨hr, hvh⟩ := hp (r, v) (by simp)
    obtain ⟨c2, r2, hcons, hws2, hne2, _, _⟩ := valHead_elim r hvh
    match fuel, hlen with
    | f + 1, hlen =>
      simp only [List.map_cons, renderArr, List.length_cons, List.length_append,
        renderTail] at hlen
      have hlen2 : r.length + (renderTail (ps.map Prod.fst) ++ ']' :: rest).length < f := by
        simp only [List.length_append, List.length_cons]
        rw [hcons] at hlen ⊢
        simp only [List.length_cons] at hlen ⊢
        omega
      have hlen3 : (renderTail (ps.map Prod.fst)).length + 1 + rest.length < f := by
        rw [hcons] at hlen
        simp only [List.length_cons] at hlen
        omega
      have hnum2 : numBoundary (renderTail (ps.map Prod.fst) ++ ']' :: rest) = true :=
        numBoundary_renderTail _ _ _ (by decide)
      simp only [List.map_cons, renderArr, renderTail, List.cons_append, parseVal]
      rw [skipWs_cons _ _ (by decide)]
      simp only [if_neg (by decide : ¬('[' = lbrace)), if_pos (rfl : ('[' : Char) = '[')]
      rw [show r ++ renderTail (ps.map Prod.fst) ++ [']'] ++ rest
            = r ++ (renderTail (ps.map Prod.fst) ++ ']' :: rest) from by simp]
      rw [hcons, List.cons_append]
      rw [skipWs_cons _ _ hws2]
      simp only [if_neg hne2]
      rw [show c2 :: (r2 ++ (renderTail (ps.map Prod.fst) ++ ']' :: rest))
            = (c2 :: r2) ++ (renderTail (ps.map Prod.fst) ++ ']' :: rest) from rfl]
      rw [← hcons]
      rw [hr _ f hlen2 hnum2]
      simp only []
      rw [parseElemsTail_render ps rest f (fun p hq => hp p (by simp [hq])) hlen3 hnum]
      simp

theorem parseMembersTail_render :
    ∀ (fields : List (LChar × LChar × Json)) (rest : LChar) (fuel : Nat),
      (∀ p ∈ fields, SafeStr p.1 = true ∧ ParsesTo p.2.1 p.2.2 ∧ valHead p.2.1 = true) →
      (renderTail (fields.map (fun p => renderField p.1 p.2.1))).length + 1
          + rest.length < fuel →
      numBoundary rest = true →
      parseMembersTail fuel
          (renderTail (fields.map (fun p => renderField p.1 p.2.1)) ++ rbrace :: rest)
        = some (fields.map (fun p => (p.1, p.2.2)), rest) := by
  intro fields
  induction fields with
  | nil =>
    intro rest fuel hp hlen hnum
    match fuel, hlen with
    | f + 1, hlen =>
      simp only [List.map_nil, renderTail, List.nil_append, parseMembersTail]
      rw [skipWs_cons _ _ (by decide)]
      simp
  | cons pv ps ih =>
    obtain ⟨k, vr, v⟩ := pv
    intro rest fuel hp hlen hnum
    obtain ⟨hk, hr, hvh⟩ := hp (k, vr, v) (by simp)
    match fuel, hlen with
    | f + 1, hlen =>
      simp only [List.map_cons, renderTail, List.length_cons, List.length_append] at hlen
      have hfl : (renderField k vr).length = k.length + vr.length + 3 := by
        simp [renderField, renderStr]
        omega
      have hlen2 : vr.length
          + (renderTail (ps.map (fun p => renderField p.1 p.2.1)) ++ rbrace :: rest).length
          < f := by
        simp only [List.length_append, List.length_cons]
        omega
      have hlen3 : (renderTail (ps.map (fun p => renderField p.1 p.2.1))).length + 1
          + rest.length < f := by omega
      have hnum2 : numBoundary
          (renderTail (ps.map (fun p => renderField p.1 p.2.1)) ++ rbrace :: rest)
          = true :=
        numBoundary_renderTail _ _ _ (by decide)
      simp only [List.map_cons, renderTail, List.cons_append, parseMembersTail]
      rw [skipWs_cons _ _ (by decide)]
      simp only [if_neg (by decide : ¬(',' = rbrace)), if_pos (rfl : (',' : Char) = ',')]
      rw [show renderField k vr ++ renderTail (ps.map fun p => renderField p.1 p.2.1)
              ++ rbrace :: rest
            = '"' :: (k ++ '"' :: ':'
                :: (vr ++ (renderTail (ps.map fun p => renderField p.1 p.2.1)
                      ++ rbrace :: rest))) from by simp [renderField, renderStr]]
      rw [skipWs_cons _ _ (by decide)]
      simp only []
      rw [parseStrBody_append k _ hk]
      simp only []
      rw [skipWs_cons _ _ (by decide)]
      simp only []
      rw [hr _ f hlen2 hnum2]
      simp only []
      rw [ih rest f (fun p hq => hp p (by simp [hq])) hlen3 hnum]
      simp

theorem parsesTo_obj (fields : List (LChar × LChar × Json))
    (hp : ∀ p ∈ fields, SafeStr p.1 = true ∧ ParsesTo p.2.1 p.2.2 ∧ valHead p.2.1 = true) :
    ParsesTo (renderObj (fields.map (fun p => renderField p.1 p.2.1)))
      (.obj (fields.map (fun p => (p.1, p.2.2)))) := by
  intro rest fuel hlen hnum
  cases fields with
  | nil =>
    match fuel, hlen with
    | f + 1, hlen =>
      simp only [List.map_nil, renderObj, List.cons_append, parseVal]
      rw [skipWs_cons _ _ (by decide)]
      simp only [if_pos (rfl : lbrace = lbrace)]
      rw [skipWs_cons _ _ (by decide)]
      simp
  | cons pv ps =>
    obtain ⟨k, vr, v⟩ := pv
    obtain ⟨hk, hr, hvh⟩ := hp (k, vr, v) (by simp)
    match fuel, hlen with
    | f + 1, hlen =>
      simp only [List.map_cons, renderObj, List.length_cons, List.length_append] at hlen
      have hfl : (renderField k vr).length = k.length + vr.length + 3 := by
        simp [renderField, renderStr]
        omega
      have hlen2 : vr.length
          + (renderTail (ps.map (fun p => renderField p.1 p.2.1)) ++ rbrace :: rest).length
          < f := by
        simp only [List.length_append, List.length_cons]
        omega
      have hlen3 : (renderTail (ps.map (fun p => renderField p.1 p.2.1))).length + 1
          + rest.length < f := by
        omega
      have hnum2 : numBoundary
          (renderTail (ps.map (fun p => renderField p.1 p.2.1)) ++ rbrace :: rest)
          = true :=
        numBoundary_renderTail _ _ _ (by decide)
      simp only [List.map_cons, renderObj, List.cons_append, parseVal]
      rw [skipWs_cons _ _ (by decide)]
      simp only [if_pos (rfl : lbrace = lbrace)]
      rw [show renderField k vr ++ renderTail (ps.map fun p => renderField p.1 p.2.1)
              ++ [rbrace] ++ rest
            = '"' :: (k ++ '"' :: ':'
                :: (vr ++ (renderTail (ps.map fun p => renderField p.1 p.2.1)
                      ++ rbrace :: rest))) from by simp [renderField, renderStr]]
      rw [skipWs_cons _ _ (by decide)]
      simp only [if_neg (by decide : ¬('"' = rbrace)), if_pos (rfl : ('"' : Char) = '"')]
      rw [parseStrBody_append k _ hk]
      simp only []
      rw [skipWs_cons _ _ (by decide)]
      simp only []
      rw [hr _ f hlen2 hnum2]
      simp only []
      rw [parseMembersTail_render ps rest f (fun p hq => hp p (by simp [hq])) hlen3 hnum]
      simp

theorem search_from_to (now : LChar) (x : Search) :
    Search.from_dict now
      [("query".data, Json.str x.query), ("url".data, Json.str x.url),
       ("title".data, Json.str x.title), ("content".data, Json.str x.content),
       ("score".data, match x.score with | none => Json.null | some i => Json.num i),
       ("timestamp".data, Json.str x.timestamp)] = some x := by
  obtain ⟨q, u, t, c, sc, ts⟩ := x
  cases sc <;> rfl

theorem searchList_from_to (now : LChar) :
    ∀ l : List Search,
      (l.map Search.to_dict).mapM
        (fun j => match j with | .obj k => Search.from_dict now k | _ => none)
        = some l := by
  intro l
  induction l with
  | nil => rfl
  | cons s ss ih =>
    simp only [List.map_cons, List.mapM_cons]
    have hs : Search.to_dict s = Json.obj
        [("query".data, Json.str s.query), ("url".data, Json.str s.url),
         ("title".data, Json.str s.title), ("content".data, Json.str s.content),
         ("score".data, match s.score with | none => Json.null | some i => Json.num i),
         ("timestamp".data, Json.str s.timestamp)] := rfl
    rw [hs]
    simp only []
    rw [search_from_to now s, ih]
    rfl

theorem research_from_to (now : LChar) (r : Research) :
    Research.from_dict now
      [("search_history".data, Json.arr (r.search_history.map Search.to_dict)),
       ("latest_summary".data, Json.str r.latest_summary),
       ("reflection_iteration".data, Json.num r.reflection_iteration),
       ("is_finished".data, Json.bool r.is_finished)] = some r := by
  obtain ⟨hist, latest, iter, fin⟩ := r
  simp only [Research.from_dict]
  have h1 : getListD
      [("search_history".data, Json.arr (hist.map Search.to_dict)),
       ("latest_summary".data, Json.str latest),
       ("reflection_iteration".data, Json.num iter),
       ("is_finished".data, Json.bool fin)] "search_history".data
      = some (hist.map Search.to_dict) := rfl
  rw [h1]
  simp only [Option.bind_eq_bind, Option.some_bind]
  rw [searchList_from_to now hist]
  simp only [Option.some_bind]
  rfl

theorem paragraph_from_to (now : LChar) (p : Paragraph) :
    Paragraph.from_dict now
      [("title".data, Json.str p.title), ("content".data, Json.str p.content),
       ("research".data, Research.to_dict p.research), ("order".data, Json.num p.order)]
      = some p := by
  obtain ⟨title, content, res, order⟩ := p
  show ((Research.from_dict now
      [("search_history".data, Json.arr (res.search_history.map Search.to_dict)),
       ("latest_summary".data, Json.str res.latest_summary),
       ("reflection_iteration".data, Json.num res.reflection_iteration),
       ("is_finished".data, Json.bool res.is_finished)]).bind
      (fun research => some (Paragraph.mk title content research order)))
      = some (Paragraph.mk title content res order)
  rw [research_from_to now res]
  rfl

theorem paragraphList_from_to (now : LChar) :
    ∀ l : List Paragraph,
      (l.map Paragraph.to_dict).mapM
        (fun j => match j with | .obj k => Paragraph.from_dict now k | _ => none)
        = some l := by
  intro l
  induction l with
  | nil => rfl
  | cons p ps ih =>
    simp only [List.map_cons, List.mapM_cons]
    have hp : Paragraph.to_dict p = Json.obj
        [("title".data, Json.str p.title), ("content".data, Json.str p.content),
         ("research".data, Research.to_dict p.research),
         ("order".data, Json.num p.order)] := rfl
    rw [hp]
    simp only []
    rw [paragraph_from_to now p, ih]
    rfl

theorem state_from_to (now : LChar) (st : State) :
    State.from_dict now
      [("query".data, Json.str st.query),
       ("report_title".data, Json.str st.report_title),
       ("paragraphs".data, Json.arr (st.paragraphs.map Paragraph.to_dict)),
       ("final_report".data, Json.str st.final_report),
       ("is_completed".data, Json.bool st.is_completed),
       ("created_at".data, Json.str st.created_at),
       ("updated_at".data, Json.str st.updated_at)] = some st := by
  obtain ⟨query, report_title, paragraphs, final_report, is_completed,
    created_at, updated_at⟩ := st
  show (((paragraphs.map Paragraph.to_dict).mapM
      (fun (j : Json) =>
        match j with | .obj k => Paragraph.from_dict now k | _ => none)).bind
      (fun ps => some (State.mk query report_title ps final_report is_completed
        created_at updated_at)))
      = some (State.mk query report_title paragraphs final_report is_completed
          created_at updated_at)
  rw [paragraphList_from_to now paragraphs]
  rfl

theorem parsesTo_search (x : Search) (hx : SafeSearch x = true) :
    ParsesTo (Search.render x) (Search.to_dict x) := by
  simp only [SafeSearch, Bool.and_eq_true] at hx
  obtain ⟨⟨⟨⟨h1, h2⟩, h3⟩, h4⟩, h5⟩ := hx
  have h := parsesTo_obj
    [("query".data, renderStr x.query, Json.str x.query),
     ("url".data, renderStr x.url, Json.str x.url),
     ("title".data, renderStr x.title, Json.str x.title),
     ("content".data, renderStr x.content, Json.str x.content),
     ("score".data, renderOptInt x.score,
        match x.score with | none => Json.null | some i => Json.num i),
     ("timestamp".data, renderStr x.timestamp, Json.str x.timestamp)]
    (by
      intro p hp
      simp only [List.mem_cons, List.mem_singleton] at hp
      rcases hp with rfl | rfl | rfl | rfl | rfl | rfl | h
      · exact ⟨by show SafeStr "query".data = true; decide,
          parsesTo_str x.query h1, valHead_renderStr _⟩
      · exact ⟨by show SafeStr "url".data = true; decide,
          parsesTo_str x.url h2, valHead_renderStr _⟩
      · exact ⟨by show SafeStr "title".data = true; decide,
          parsesTo_str x.title h3, valHead_renderStr _⟩
      · exact ⟨by show SafeStr "content".data = true; decide,
          parsesTo_str x.content h4, valHead_renderStr _⟩
      · exact ⟨by show SafeStr "score".data = true; decide,
          parsesTo_optInt x.score, valHead_renderOptInt _⟩
      · exact ⟨by show SafeStr "timestamp".data = true; decide,
          parsesTo_str x.timestamp h5, valHead_renderStr _⟩
      · exact absurd h (by simp))
  exact h

theorem parsesTo_search_list (l : List Search) (hl : l.all SafeSearch = true) :
    ParsesTo (renderArr (l.map Search.render)) (.arr (l.map Search.to_dict)) := by
  have h := parsesTo_arr (l.map (fun s => (Search.render s, Search.to_dict s)))
    (by
      intro p hp
      simp only [List.mem_map] at hp
      obtain ⟨s, hs, rfl⟩ := hp
      refine ⟨parsesTo_search s (by
          have := List.all_eq_true.mp hl s hs
          simpa using this), ?_⟩
      show valHead (Search.render s) = true
      exact valHead_renderObj _)
  simpa [List.map_map, Function.comp_def] using h

theorem parsesTo_research (r : Research) (hr : SafeResearch r = true) :
    ParsesTo (Research.render r) (Research.to_dict r) := by
  simp only [SafeResearch, Bool.and_eq_true] at hr
  obtain ⟨hh, hs⟩ := hr
  have h := parsesTo_obj
    [("search_history".data, renderArr (r.search_history.map Search.render),
        Json.arr (r.search_history.map Search.to_dict)),
     ("latest_summary".data, renderStr r.latest_summary, Json.str r.latest_summary),
     ("reflection_iteration".data, renderInt r.reflection_iteration,
        Json.num r.reflection_iteration),
     ("is_finished".data, renderBool r.is_finished, Json.bool r.is_finished)]
    (by
      intro p hp
      simp only [List.mem_cons, List.mem_singleton] at hp
      rcases hp with rfl | rfl | rfl | rfl | h
      · exact ⟨by show SafeStr "search_history".data = true; decide,
          parsesTo_search_list r.search_history hh, valHead_renderArr _⟩
      · exact ⟨by show SafeStr "latest_summary".data = true; decide,
          parsesTo_str r.latest_summary hs, valHead_renderStr _⟩
      · exact ⟨by show SafeStr "reflection_iteration".data = true; decide,
          parsesTo_int r.reflection_iteration, valHead_renderInt _⟩
      · exact ⟨by show SafeStr "is_finished".data = true; decide,
          parsesTo_bool r.is_finished, valHead_renderBool _⟩
      · exact absurd h (by simp))
  exact h

theorem parsesTo_paragraph (p : Paragraph) (hp : SafeParagraph p = true) :
    ParsesTo (Paragraph.render p) (Paragraph.to_dict p) := by
  simp only [SafeParagraph, Bool.and_eq_true] at hp
  obtain ⟨⟨ht, hc⟩, hr⟩ := hp
  have h := parsesTo_obj
    [("title".data, renderStr p.title, Json.str p.title),
     ("content".data, renderStr p.content, Json.str p.content),
     ("research".data, Research.render p.research, Research.to_dict p.research),
     ("order".data, renderInt p.order, Json.num p.order)]
    (by
      intro q hq
      simp only [List.mem_cons, List.mem_singleton] at hq
      rcases hq with rfl | rfl | rfl | rfl | h
      · exact ⟨by show SafeStr "title".data = true; decide,
          parsesTo_str p.title ht, valHead_renderStr _⟩
      · exact ⟨by show SafeStr "content".data = true; decide,
          parsesTo_str p.content hc, valHead_renderStr _⟩
      · refine ⟨by show SafeStr "research".data = true; decide,
          parsesTo_research p.research hr, ?_⟩
        show valHead (Research.render p.research) = true
        exact valHead_renderObj _
      · exact ⟨by show SafeStr "order".data = true; decide,
          parsesTo_int p.order, valHead_renderInt _⟩
      · exact absurd h (by simp))
  exact h

theorem parsesTo_paragraph_list (l : List Paragraph) (hl : l.all SafeParagraph = true) :
    ParsesTo (renderArr (l.map Paragraph.render)) (.arr (l.map Paragraph.to_dict)) := by
  have h := parsesTo_arr (l.map (fun p => (Paragraph.render p, Paragraph.to_dict p)))
    (by
      intro q hq
      simp only [List.mem_map] at hq
      obtain ⟨p, hp, rfl⟩ := hq
      refine ⟨parsesTo_paragraph p (by
          have := List.all_eq_true.mp hl p hp
          simpa using this), ?_⟩
      show valHead (Paragraph.render p) = true
      exact valHead_renderObj _)
  simpa [List.map_map, Function.comp_def] using h

theorem parsesTo_state (st : State) (hst : SafeState st = true) :
    ParsesTo (State.to_json st) (State.to_dict st) := by
  simp only [SafeState, Bool.and_eq_true] at hst
  obtain ⟨⟨⟨⟨⟨hq, hrt⟩, hps⟩, hfr⟩, hca⟩, hua⟩ := hst
  have h := parsesTo_obj
    [("query".data, renderStr st.query, Json.str st.query),
     ("report_title".data, renderStr st.report_title, Json.str st.report_title),
     ("paragraphs".data, renderArr (st.paragraphs.map Paragraph.render),
        Json.arr (st.paragraphs.map Paragraph.to_dict)),
     ("final_report".data, renderStr st.final_report, Json.str st.final_report),
     ("is_completed".data, renderBool st.is_completed, Json.bool st.is_completed),
     ("created_at".data, renderStr st.created_at, Json.str st.created_at),
     ("updated_at".data, renderStr st.updated_at, Json.str st.updated_at)]
    (by
      intro q hq2
      simp only [List.mem_cons, List.mem_singleton] at hq2
      rcases hq2 with rfl | rfl | rfl | rfl | rfl | rfl | rfl | h
      · exact ⟨by show SafeStr "query".data = true; decide,
          parsesTo_str st.query hq, valHead_renderStr _⟩
      · exact ⟨by show SafeStr "report_title".data = true; decide,
          parsesTo_str st.report_title hrt, valHead_renderStr _⟩
      · exact ⟨by show SafeStr "paragraphs".data = true; decide,
          parsesTo_paragraph_list st.paragraphs hps, valHead_renderArr _⟩
      · exact ⟨by show SafeStr "final_report".data = true; decide,
          parsesTo_str st.final_report hfr, valHead_renderStr _⟩
      · exact ⟨by show SafeStr "is_completed".data = true; decide,
          parsesTo_bool st.is_completed, valHead_renderBool _⟩
      · exact ⟨by show SafeStr "created_at".data = true; decide,
          parsesTo_str st.created_at hca, valHead_renderStr _⟩
      · exact ⟨by show SafeStr "updated_at".data = true; decide,
          parsesTo_str st.updated_at hua, valHead_renderStr _⟩
      · exact absurd h (by simp))
  exact h

theorem parseJson_render (rendered : LChar) (v : Json) (h : ParsesTo rendered v) :
    parseJson rendered = some v := by
  have h2 := h [] (rendered.length + 1) (by simp) (by decide)
  rw [List.append_nil] at h2
  simp [parseJson, h2, skipWs]

/-- C5: for every report state `X` whose strings are safely representable
in the modelled JSON fragment, serializing with `State.to_json` and loading
back with `State.from_json` recovers `X` field-for-field: the query, the
report title, every paragraph with its research record and full search
history (including optional scores), the final report, the completion flag
and both timestamps. -/
theorem claim_C5_roundtrip (now : LChar) (X : State) (h : SafeState X = true) :
    State.from_json now X.to_json = some X := by
  have h1 : parseJson (State.to_json X) = some (State.to_dict X) :=
    parseJson_render _ _ (parsesTo_state X h)
  simp only [State.from_json, h1, State.to_dict]
  exact state_from_to now X

/-- Witness: the round trip is exact on a concrete two-paragraph state. -/
theorem claim_C5_witness :
    SafeState wState = true
      ∧ State.from_json "T0".data wState.to_json = some wState :=
  ⟨by decide, claim_C5_roundtrip "T0".data wState (by decide)⟩

theorem noTick_mem (l : LChar) (hl : noTick l = true) (c : Char) (hc : c ∈ l) :
    ¬(c = btick) := by
  have := List.all_eq_true.mp hl c hc
  simpa using this

theorem proseOk_mem (p : LChar) (hp : proseOk p = true) (c : Char) (hc : c ∈ p) :
    isBraceOpen c = false ∧ ¬(c = btick) := by
  have := List.all_eq_true.mp hp c hc
  simp only [Bool.and_eq_true, Bool.not_eq_true', decide_eq_false_iff_not] at this
  exact ⟨this.1, this.2⟩

theorem noTick_of_proseOk (p : LChar) (hp : proseOk p = true) : noTick p = true := by
  simp only [noTick, List.all_eq_true]
  intro c hc
  have := (proseOk_mem p hp c hc).2
  simpa using this

theorem rmFenceWordF_noTick (w w' : LChar) (hw : w = btick :: w') :
    ∀ (f : Nat) (l : LChar), noTick l = true → rmFenceWordF w f l = l := by
  intro f
  induction f with
  | zero => intro l _; cases l <;> rfl
  | succ f ih =>
    intro l hl
    cases l with
    | nil => rfl
    | cons c cs =>
      have hc : ¬(c = btick) := noTick_mem _ hl c (by simp)
      have hcs : noTick cs = true := by
        simp only [noTick, List.all_cons, Bool.and_eq_true] at hl
        exact hl.2
      have hbne : (btick == c) = false := beq_eq_false_iff_ne.mpr (fun h => hc h.symm)
      have hpre : w.isPrefixOf (c :: cs) = false := by
        rw [hw]
        simp [List.isPrefixOf, hbne]
      simp only [rmFenceWordF]
      rw [hpre]
      simp only [Bool.false_eq_true, if_false]
      rw [ih cs hcs]

theorem rmFence3F_noTick :
    ∀ (f : Nat) (l : LChar), noTick l = true → rmFence3F f l = l := by
  intro f
  induction f with
  | zero => intro l _; cases l <;> rfl
  | succ f ih =>
    intro l hl
    cases l with
    | nil => rfl
    | cons c cs =>
      have hc : ¬(c = btick) := noTick_mem _ hl c (by simp)
      have hcs : noTick cs = true := by
        simp only [noTick, List.all_cons, Bool.and_eq_true] at hl
        exact hl.2
      have hbne : (btick == c) = false := beq_eq_false_iff_ne.mpr (fun h => hc h.symm)
      have hpre : fence3.isPrefixOf (c :: cs) = false := by
        simp [fence3, List.isPrefixOf, hbne]
      simp only [rmFence3F]
      rw [hpre]
      simp only [Bool.false_eq_true, if_false]
      rw [ih cs hcs]

theorem rmFenceEnd_noTick (l : LChar) (hl : noTick l = true) : rmFenceEnd l = l := by
  show (if fence3.isPrefixOf (l.reverse.dropWhile isSpacePy)
      then ((l.reverse.dropWhile isSpacePy).drop 3).reverse else l) = l
  cases hr : l.reverse.dropWhile isSpacePy with
  | nil => simp [fence3, List.isPrefixOf]
  | cons c r2 =>
    have hcl : c ∈ l := by
      have h1 : c ∈ l.reverse.dropWhile isSpacePy := by rw [hr]; simp
      have h2 := (List.dropWhile_sublist _).subset h1
      simpa using h2
    have hc : ¬(c = btick) := noTick_mem _ hl c hcl
    have hbne : (btick == c) = false := beq_eq_false_iff_ne.mpr (fun h => hc h.symm)
    simp [fence3, List.isPrefixOf, hbne]

theorem clean_json_tags_noTick (t : LChar) (ht : noTick t = true) :
    clean_json_tags t = pyStrip t := by
  have h1 : rmFenceWord fenceJson t = t :=
    rmFenceWordF_noTick fenceJson _ rfl t.length t ht
  unfold clean_json_tags rmFenceWord at h1 ⊢
  rw [h1, rmFenceEnd_noTick t ht]
  show pyStrip (rmFence3F t.length t) = pyStrip t
  rw [rmFence3F_noTick t.length t ht]

theorem jsonHead_not_space (s : LChar) (hh : jsonHeadOk s = true) :
    ∀ c t, s = c :: t → isSpacePy c = false := by
  intro c t hct
  rw [hct] at hh
  simp only [jsonHeadOk, isBraceOpen, Bool.or_eq_true, decide_eq_true_eq] at hh
  rcases hh with h | h <;> (rw [h]; decide)

theorem jsonTail_reverse_strip (s : LChar) (ht : jsonTailOk s = true) :
    s.reverse.dropWhile isSpacePy = s.reverse := by
  apply dropWhile_eq_self_of_head
  intro x t hx
  have h1 : s.reverse.head? = some x := by rw [hx]; rfl
  rw [List.head?_reverse] at h1
  simp only [jsonTailOk, h1] at ht
  simpa using ht

theorem pyStrip_append_json (p s : LChar) (hh : jsonHeadOk s = true)
    (ht : jsonTailOk s = true) :
    pyStrip (p ++ s) = p.dropWhile isSpacePy ++ s := by
  have hsne : s ≠ [] := by
    cases s with
    | nil => simp [jsonHeadOk] at hh
    | cons a b => simp
  have hsdrop : s.dropWhile isSpacePy = s :=
    dropWhile_eq_self_of_head _ _ (jsonHead_not_space s hh)
  have hlast := jsonTail_reverse_strip s ht
  simp only [pyStrip]
  rw [dropWhile_append_char]
  by_cases hpe : (p.dropWhile isSpacePy).isEmpty = true
  · rw [if_pos hpe, hsdrop, hlast, List.reverse_reverse]
    have hpnil : p.dropWhile isSpacePy = [] := by simpa [List.isEmpty_iff] using hpe
    rw [hpnil, List.nil_append]
  · rw [if_neg hpe, List.reverse_append, dropWhile_append_char]
    have hrne : (s.reverse.dropWhile isSpacePy).isEmpty = false := by
      rw [hlast]
      simpa [List.isEmpty_iff] using hsne
    rw [if_neg (by simp [hrne]), hlast, ← List.reverse_append, List.reverse_reverse]

theorem pyStrip_json_id (s : LChar) (hh : jsonHeadOk s = true)
    (ht : jsonTailOk s = true) : pyStrip s = s := by
  have := pyStrip_append_json [] s hh ht
  simpa using this

theorem dropToBrace_append (q s : LChar) (hq : ∀ c ∈ q, isBraceOpen c = false)
    (hh : jsonHeadOk s = true) : dropToBrace (q ++ s) = s := by
  unfold dropToBrace
  rw [dropWhile_append_all _ q s (by intro c hc; simp [hq c hc])]
  apply dropWhile_eq_self_of_head
  intro x t hx
  rw [hx] at hh
  simp only [jsonHeadOk] at hh
  simp [hh]

theorem matchesCI_append_long :
    ∀ (p t : LChar) (c : Char) (s2 : LChar), matchesCI t (p ++ c :: s2) = true →
      p.length < t.length → ∃ a ∈ t, a.toLower = c.toLower := by
  intro p
  induction p with
  | nil =>
    intro t c s2 hm hlen
    cases t with
    | nil => simp at hlen
    | cons a as =>
      simp only [List.nil_append, matchesCI, Bool.and_eq_true] at hm
      exact ⟨a, by simp, by simpa using hm.1⟩
  | cons b p2 ih =>
    intro t c s2 hm hlen
    cases t with
    | nil => simp at hlen
    | cons a as =>
      simp only [List.cons_append, matchesCI, Bool.and_eq_true] at hm
      obtain ⟨x, hx, he⟩ := ih as c s2 hm.2 (by simpa using hlen)
      exact ⟨x, by simp [hx], he⟩

theorem subTriggerF_trigFree (trigs : List LChar)
    (hne : ∀ t ∈ trigs, t ≠ []) :
    ∀ (f : Nat) (s : LChar), s.length ≤ f → trigFree trigs s = true →
      subTriggerF trigs f s = s := by
  intro f
  induction f with
  | zero => intro s _ _; cases s <;> rfl
  | succ f ih =>
    intro s hlen htf
    cases s with
    | nil => rfl
    | cons c cs =>
      simp only [trigFree, Bool.and_eq_true] at htf
      obtain ⟨hat, htail⟩ := htf
      simp only [subTriggerF]
      cases hfind : trigs.find? (fun t => matchesCI t (c :: cs)) with
      | none =>
        simp only []
        rw [ih cs (by simpa using Nat.le_of_succ_le_succ hlen) htail]
      | some t =>
        have htmem : t ∈ trigs := List.mem_of_find?_eq_some hfind
        have htne : t ≠ [] := hne t htmem
        have hnob : hasBraceOpen ((c :: cs).drop t.length) = false := by
          simp only [trigFreeAt, hfind] at hat
          simpa using hat
        have hdrop : cs.drop (t.length - 1) = (c :: cs).drop t.length := by
          cases t with
          | nil => exact absurd rfl htne
          | cons a as => simp
        simp only []
        rw [hdrop, hnob]
        simp only [Bool.false_eq_true, if_false]
        rw [ih cs (by simpa using Nat.le_of_succ_le_succ hlen) htail]

theorem subTriggerF_prose_append (trigs : List LChar)
    (hne : ∀ t ∈ trigs, t ≠ [])
    (hch : ∀ t ∈ trigs, ∀ a ∈ t, ¬(a.toLower = Char.toLower lbrace)
      ∧ ¬(a.toLower = Char.toLower '[')) :
    ∀ (f : Nat) (p s : LChar), p.length + s.length ≤ f → proseOk p = true →
      jsonHeadOk s = true → trigFree trigs s = true →
      ∃ q, subTriggerF trigs f (p ++ s) = q ++ s ∧ proseOk q = true := by
  intro f
  induction f with
  | zero =>
    intro p s hlen hp hh htf
    cases s with
    | nil => simp [jsonHeadOk] at hh
    | cons b s2 => simp at hlen
  | succ f ih =>
    intro p s hlen hp hh htf
    obtain ⟨b, s2, rfl⟩ : ∃ b s2, s = b :: s2 := by
      cases s with
      | nil => simp [jsonHeadOk] at hh
      | cons b s2 => exact ⟨b, s2, rfl⟩
    have hbo : isBraceOpen b = true := by simpa [jsonHeadOk] using hh
    cases p with
    | nil =>
      refine ⟨[], ?_, rfl⟩
      simp only [List.nil_append]
      exact subTriggerF_trigFree trigs hne (f + 1) (b :: s2) (by simpa using hlen) htf
    | cons c p2 =>
      obtain ⟨hcb, hct⟩ := proseOk_mem (c :: p2) hp c (by simp)
      have hp2 : proseOk p2 = true := by
        simp only [proseOk, List.all_cons, Bool.and_eq_true] at hp
        exact hp.2
      simp only [List.cons_append, subTriggerF]
      cases hfind : trigs.find? (fun t => matchesCI t (c :: (p2 ++ b :: s2))) with
      | none =>
        obtain ⟨q, hq, hpq⟩ := ih p2 (b :: s2) (by simp at hlen ⊢; omega) hp2 hh htf
        refine ⟨c :: q, ?_, ?_⟩
        · simp only [List.append_eq]
          rw [hq]
          rfl
        · simp only [proseOk, List.all_cons, Bool.and_eq_true]
          refine ⟨?_, hpq⟩
          simp [hcb, hct]
      | some t =>
        have htmem := List.mem_of_find?_eq_some hfind
        have htne := hne t htmem
        have hmatch : matchesCI t (c :: (p2 ++ b :: s2)) = true := by
          have := List.find?_some hfind
          simpa using this
        have htlen : t.length ≤ p2.length + 1 := by
          by_contra hgt
          push_neg at hgt
          have hm2 : matchesCI t ((c :: p2) ++ b :: s2) = true := by simpa using hmatch
          obtain ⟨a, hat, hae⟩ := matchesCI_append_long (c :: p2) t b s2 hm2
            (by simpa using hgt)
          obtain ⟨hnl, hnb⟩ := hch t htmem a hat
          rcases (by simpa [isBraceOpen] using hbo : b = lbrace ∨ b = '[') with h | h
          · rw [h] at hae
            exact hnl hae
          · rw [h] at hae
            exact hnb hae
        have hk : t.length - 1 ≤ p2.length := by omega
        have hdrop : (p2 ++ b :: s2).drop (t.length - 1)
            = p2.drop (t.length - 1) ++ b :: s2 :=
          List.drop_append_of_le_length hk
        have hbrace : hasBraceOpen ((p2 ++ b :: s2).drop (t.length - 1)) = true := by
          rw [hdrop]
          simp only [hasBraceOpen, List.any_append, List.any_cons, hbo, Bool.true_or,
            Bool.or_true]
        have hdtb : dropToBrace ((p2 ++ b :: s2).drop (t.length - 1)) = b :: s2 := by
          rw [hdrop]
          exact dropToBrace_append _ _ (fun x hx => (proseOk_mem p2 hp2 x
            (List.mem_of_mem_drop hx)).1) (by simpa [jsonHeadOk] using hbo)
        simp only [List.append_eq]
        rw [hbrace]
        simp only [if_true]
        rw [hdtb]
        refine ⟨[], ?_, rfl⟩
        simp only [List.nil_append]
        exact subTriggerF_trigFree trigs hne f (b :: s2) (by simp at hlen ⊢; omega) htf

theorem cleanedOf_prose_json (p s : LChar) (hp : proseOk p = true)
    (hh : jsonHeadOk s = true) (ht : jsonTailOk s = true) (hnt : noTick s = true)
    (hfa : trigFree trigsA s = true) (hfb : trigFree trigsB s = true) :
    cleanedOf (p ++ s) = s := by
  have hnt2 : noTick (p ++ s) = true := by
    simp only [noTick, List.all_append, Bool.and_eq_true]
    exact ⟨noTick_of_proseOk p hp, hnt⟩
  have h1 : clean_json_tags (p ++ s) = pyStrip (p ++ s) := clean_json_tags_noTick _ hnt2
  have h2 : pyStrip (p ++ s) = p.dropWhile isSpacePy ++ s := pyStrip_append_json p s hh ht
  have hp1ok : proseOk (p.dropWhile isSpacePy) = true := by
    simp only [proseOk, List.all_eq_true]
    intro c hc
    exact List.all_eq_true.mp hp c ((List.dropWhile_sublist _).subset hc)
  have hneA : ∀ t ∈ trigsA, t ≠ [] := by decide
  have hchA : ∀ t ∈ trigsA, ∀ a ∈ t, ¬(a.toLower = Char.toLower lbrace)
      ∧ ¬(a.toLower = Char.toLower '[') := by decide
  have hneB : ∀ t ∈ trigsB, t ≠ [] := by decide
  have hchB : ∀ t ∈ trigsB, ∀ a ∈ t, ¬(a.toLower = Char.toLower lbrace)
      ∧ ¬(a.toLower = Char.toLower '[') := by decide
  obtain ⟨q, hq, hqok⟩ := subTriggerF_prose_append trigsA hneA hchA
    (p.dropWhile isSpacePy ++ s).length (p.dropWhile isSpacePy) s (by simp)
    hp1ok hh hfa
  obtain ⟨q2, hq2, hq2ok⟩ := subTriggerF_prose_append trigsB hneB hchB
    (q ++ s).length q s (by simp) hqok hh hfb
  obtain ⟨b, s2, rfl⟩ : ∃ b s2, s = b :: s2 := by
    cases s with
    | nil => simp [jsonHeadOk] at hh
    | cons b s2 => exact ⟨b, s2, rfl⟩
  have hbo : isBraceOpen b = true := by simpa [jsonHeadOk] using hh
  have hbrace : hasBraceOpen (q2 ++ b :: s2) = true := by
    simp only [hasBraceOpen, List.any_append, List.any_cons, hbo, Bool.true_or,
      Bool.or_true]
  unfold cleanedOf remove_reasoning_from_output
  rw [h1, h2]
  simp only [subTrigger]
  rw [hq, hq2]
  unfold dropBeforeBrace
  rw [hbrace]
  simp only [if_true]
  rw [dropToBrace_append q2 (b :: s2) (fun c hc => (proseOk_mem q2 hq2ok c hc).1) hh]
  exact pyStrip_json_id (b :: s2) hh ht

theorem span_none_of_no_head (l : LChar) (a b : Char)
    (ha : ∀ c ∈ l, ¬(c = a)) : spanFromTo a b l = none := by
  have hdrop : l.dropWhile (fun c => !(c = a)) = [] := by
    have := dropWhile_append_all (fun c => !(c = a)) l []
      (by intro c hc; simp [ha c hc])
    simpa using this
  simp [spanFromTo, hdrop]

theorem extract_fail_of_no_brace (t : LChar)
    (hpj : parseJson (cleanedOf t) = none)
    (hnb : hasBraceOpen (cleanedOf t) = false) :
    extract_clean_response t = failRecord (cleanedOf t) := by
  have hmem2 : ∀ c ∈ cleanedOf t, ¬(c = lbrace) ∧ ¬(c = '[') := by
    intro c hc
    have hm : isBraceOpen c = false := by
      by_contra hcon
      simp only [Bool.not_eq_false] at hcon
      have : hasBraceOpen (cleanedOf t) = true := by
        simp only [hasBraceOpen, List.any_eq_true]
        exact ⟨c, hc, hcon⟩
      simp [this] at hnb
    simp only [isBraceOpen, Bool.or_eq_false_iff, decide_eq_false_iff_not] at hm
    exact hm
  have hs1 : spanFromTo lbrace rbrace (cleanedOf t) = none :=
    span_none_of_no_head _ _ _ (fun c hc => (hmem2 c hc).1)
  have hs2 : spanFromTo '[' ']' (cleanedOf t) = none :=
    span_none_of_no_head _ _ _ (fun c hc => (hmem2 c hc).2)
  simp only [cleanedOf] at hpj hs1 hs2
  simp only [extract_clean_response, extractArrayAttempt, cleanedOf, hpj, hs1, hs2]

/-- Counterexamples to the literal C2: the text `Answer: "yes"` contains the
well-formed JSON value `"yes"`, yet the function returns the failure record
(only brace/bracket containers are recovered); and for a fenced input the
failure record carries the cleaned text, which differs from the original. -/
theorem claim_C2_counterexample :
    parseJson "\"yes\"".data = some (Json.str "yes".data)
      ∧ extract_clean_response ("Answer: \"yes\"").data
          = failRecord "Answer: \"yes\"".data
      ∧ (failRecord "Answer: \"yes\"".data ≠ Json.str "yes".data)
      ∧ cleanedOf (fence3 ++ "bad".data) = "bad".data
      ∧ extract_clean_response (fence3 ++ "bad".data) = failRecord "bad".data
      ∧ "bad".data ≠ fence3 ++ "bad".data :=
  ⟨rfl, rfl, fun h => Json.noConfusion h, rfl, rfl, by decide⟩

theorem isSpacePy_ne_btick (c : Char) (hc : isSpacePy c = true) : ¬(c = btick) := by
  intro h
  rw [h] at hc
  exact absurd hc (by decide)

theorem noTick_of_ws (w : LChar) (hw : ∀ c ∈ w, isSpacePy c = true) :
    noTick w = true := by
  simp only [noTick, List.all_eq_true]
  intro c hc
  simpa using isSpacePy_ne_btick c (hw c hc)

theorem rmFW_nil (f : Nat) : rmFenceWordF fenceJson f [] = [] := by
  cases f <;> rfl

theorem rmFW_fence1 (f : Nat) : rmFenceWordF fenceJson f [btick] = [btick] := by
  cases f with
  | zero => rfl
  | succ f =>
    simp only [rmFenceWordF]
    rw [show fenceJson.isPrefixOf [btick] = false from by decide]
    simp only [Bool.false_eq_true, if_false]
    rw [rmFW_nil]

theorem rmFW_fence2 (f : Nat) :
    rmFenceWordF fenceJson f [btick, btick] = [btick, btick] := by
  cases f with
  | zero => rfl
  | succ f =>
    simp only [rmFenceWordF]
    rw [show fenceJson.isPrefixOf [btick, btick] = false from by decide]
    simp only [Bool.false_eq_true, if_false]
    rw [rmFW_fence1]

theorem rmFW_fence3 (f : Nat) : rmFenceWordF fenceJson f fence3 = fence3 := by
  cases f with
  | zero => rfl
  | succ f =>
    simp only [fence3, rmFenceWordF]
    rw [show fenceJson.isPrefixOf [btick, btick, btick] = false from by decide]
    simp only [Bool.false_eq_true, if_false]
    rw [rmFW_fence2]

theorem rmFW_skip_prose :
    ∀ (p : LChar) (f : Nat) (rest : LChar), noTick p = true →
      rmFenceWordF fenceJson (p.length + f) (p ++ rest)
        = p ++ rmFenceWordF fenceJson f rest := by
  intro p
  induction p with
  | nil => intro f rest _; simp
  | cons c p2 ih =>
    intro f rest hp
    have hc : ¬(c = btick) := noTick_mem _ hp c (by simp)
    have hp2 : noTick p2 = true := by
      simp only [noTick, List.all_cons, Bool.and_eq_true] at hp
      exact hp.2
    have hbne : (btick == c) = false := beq_eq_false_iff_ne.mpr (fun h => hc h.symm)
    have hpre : fenceJson.isPrefixOf (c :: (p2 ++ rest)) = false := by
      rw [show fenceJson = btick :: ([btick, btick] ++ "json".data) from rfl]
      simp [List.isPrefixOf, hbne]
    have hlen : (c :: p2).length + f = (p2.length + f) + 1 := by
      simp only [List.length_cons]
      omega
    rw [hlen]
    simp only [List.cons_append, rmFenceWordF, List.append_eq]
    rw [hpre]
    simp only [Bool.false_eq_true, if_false]
    rw [ih f rest hp2]

theorem rmFW_at_fence (f : Nat) (w1 s u : LChar)
    (hw1 : ∀ c ∈ w1, isSpacePy c = true)
    (hh : jsonHeadOk s = true) :
    rmFenceWordF fenceJson (f + 1) (fenceJson ++ (w1 ++ (s ++ u)))
      = rmFenceWordF fenceJson f (s ++ u) := by
  obtain ⟨b, s2, rfl⟩ : ∃ b s2, s = b :: s2 := by
    cases s with
    | nil => simp [jsonHeadOk] at hh
    | cons b s2 => exact ⟨b, s2, rfl⟩
  have hbws : isSpacePy b = false := jsonHead_not_space _ hh b s2 rfl
  have hpre : fenceJson.isPrefixOf
      (btick :: ([btick, btick, 'j', 's', 'o', 'n'] ++ (w1 ++ ((b :: s2) ++ u))))
      = true := isPrefixOf_self_append fenceJson (w1 ++ ((b :: s2) ++ u))
  show rmFenceWordF fenceJson (f + 1)
      (btick :: ([btick, btick, 'j', 's', 'o', 'n'] ++ (w1 ++ ((b :: s2) ++ u))))
      = rmFenceWordF fenceJson f ((b :: s2) ++ u)
  simp only [rmFenceWordF]
  rw [hpre]
  simp only [if_true]
  show rmFenceWordF fenceJson f ((w1 ++ ((b :: s2) ++ u)).dropWhile isSpacePy)
      = rmFenceWordF fenceJson f ((b :: s2) ++ u)
  rw [dropWhile_append_all _ w1 _ (by intro c hc; simp [hw1 c hc])]
  rw [show (b :: s2) ++ u = b :: (s2 ++ u) from rfl]
  rw [List.dropWhile_cons, if_neg (by simp [hbws])]

theorem rmFW_keep_tail :
    ∀ (l : LChar) (f : Nat), noTick l = true →
      rmFenceWordF fenceJson f (l ++ fence3) = l ++ fence3 := by
  intro l
  induction l with
  | nil =>
    intro f _
    simpa using rmFW_fence3 f
  | cons c l2 ih =>
    intro f hl
    have hc : ¬(c = btick) := noTick_mem _ hl c (by simp)
    have hl2 : noTick l2 = true := by
      simp only [noTick, List.all_cons, Bool.and_eq_true] at hl
      exact hl.2
    have hbne : (btick == c) = false := beq_eq_false_iff_ne.mpr (fun h => hc h.symm)
    have hpre : fenceJson.isPrefixOf (c :: (l2 ++ fence3)) = false := by
      rw [show fenceJson = btick :: ([btick, btick] ++ "json".data) from rfl]
      simp [List.isPrefixOf, hbne]
    cases f with
    | zero => rfl
    | succ f =>
      simp only [List.cons_append, rmFenceWordF, List.append_eq]
      rw [hpre]
      simp only [Bool.false_eq_true, if_false]
      rw [ih f hl2]

theorem rmFenceEnd_strip (l w : LChar) :
    rmFenceEnd ((l ++ w) ++ fence3) = l ++ w := by
  show (if fence3.isPrefixOf (((l ++ w) ++ fence3).reverse.dropWhile isSpacePy)
      then ((((l ++ w) ++ fence3).reverse.dropWhile isSpacePy).drop 3).reverse
      else (l ++ w) ++ fence3) = l ++ w
  have hrev : ((l ++ w) ++ fence3).reverse = fence3 ++ (l ++ w).reverse := by
    rw [List.reverse_append]
    rfl
  rw [hrev]
  have hdw : (fence3 ++ (l ++ w).reverse).dropWhile isSpacePy
      = fence3 ++ (l ++ w).reverse := by
    show (btick :: ([btick, btick] ++ (l ++ w).reverse)).dropWhile isSpacePy = _
    rw [List.dropWhile_cons, if_neg (by simp; decide)]
    rfl
  rw [hdw]
  rw [isPrefixOf_self_append fence3 ((l ++ w).reverse)]
  simp only [if_true]
  show ((l ++ w).reverse).reverse = l ++ w
  exact List.reverse_reverse _

theorem pyStrip_append_json_ws (p s w : LChar) (hh : jsonHeadOk s = true)
    (ht : jsonTailOk s = true) (hw : ∀ c ∈ w, isSpacePy c = true) :
    pyStrip ((p ++ s) ++ w) = p.dropWhile isSpacePy ++ s := by
  obtain ⟨b, s2, rfl⟩ : ∃ b s2, s = b :: s2 := by
    cases s with
    | nil => simp [jsonHeadOk] at hh
    | cons b s2 => exact ⟨b, s2, rfl⟩
  have hbws : isSpacePy b = false := jsonHead_not_space _ hh b s2 rfl
  have hfront : ((p ++ (b :: s2)) ++ w).dropWhile isSpacePy
      = (p.dropWhile isSpacePy ++ (b :: s2)) ++ w := by
    rw [List.append_assoc]
    rw [dropWhile_append_char]
    by_cases hpe : (p.dropWhile isSpacePy).isEmpty = true
    · rw [if_pos hpe]
      have hpnil : p.dropWhile isSpacePy = [] := by simpa [List.isEmpty_iff] using hpe
      rw [hpnil]
      simp only [List.nil_append]
      rw [show (b :: s2) ++ w = b :: (s2 ++ w) from rfl]
      rw [List.dropWhile_cons, if_neg (by simp [hbws])]
    · rw [if_neg hpe, List.append_assoc]
  have hlast : ((p.dropWhile isSpacePy ++ (b :: s2))).reverse.dropWhile isSpacePy
      = (p.dropWhile isSpacePy ++ (b :: s2)).reverse := by
    rw [List.reverse_append]
    rw [dropWhile_append_char]
    have h1 : (b :: s2).reverse.dropWhile isSpacePy = (b :: s2).reverse :=
      jsonTail_reverse_strip _ ht
    rw [h1]
    rw [if_neg (by simp [List.isEmpty_iff])]
  simp only [pyStrip]
  rw [hfront, List.reverse_append]
  rw [dropWhile_append_all _ w.reverse _ (by intro c hc; exact hw c (by simpa using hc))]
  rw [hlast, List.reverse_reverse]

theorem remove_reasoning_prose_json (p s : LChar) (hp : proseOk p = true)
    (hh : jsonHeadOk s = true) (ht : jsonTailOk s = true)
    (hfa : trigFree trigsA s = true) (hfb : trigFree trigsB s = true) :
    remove_reasoning_from_output (p ++ s) = s := by
  have hneA : ∀ t ∈ trigsA, t ≠ [] := by decide
  have hchA : ∀ t ∈ trigsA, ∀ a ∈ t, ¬(a.toLower = Char.toLower lbrace)
      ∧ ¬(a.toLower = Char.toLower '[') := by decide
  have hneB : ∀ t ∈ trigsB, t ≠ [] := by decide
  have hchB : ∀ t ∈ trigsB, ∀ a ∈ t, ¬(a.toLower = Char.toLower lbrace)
      ∧ ¬(a.toLower = Char.toLower '[') := by decide
  obtain ⟨q, hq, hqok⟩ := subTriggerF_prose_append trigsA hneA hchA
    (p ++ s).length p s (by simp) hp hh hfa
  obtain ⟨q2, hq2, hq2ok⟩ := subTriggerF_prose_append trigsB hneB hchB
    (q ++ s).length q s (by simp) hqok hh hfb
  obtain ⟨b, s2, rfl⟩ : ∃ b s2, s = b :: s2 := by
    cases s with
    | nil => simp [jsonHeadOk] at hh
    | cons b s2 => exact ⟨b, s2, rfl⟩
  have hbo : isBraceOpen b = true := by simpa [jsonHeadOk] using hh
  have hbrace : hasBraceOpen (q2 ++ b :: s2) = true := by
    simp only [hasBraceOpen, List.any_append, List.any_cons, hbo, Bool.true_or,
      Bool.or_true]
  unfold remove_reasoning_from_output
  simp only [subTrigger]
  rw [hq, hq2]
  unfold dropBeforeBrace
  rw [hbrace]
  simp only [if_true]
  rw [dropToBrace_append q2 (b :: s2) (fun c hc => (proseOk_mem q2 hq2ok c hc).1) hh]
  exact pyStrip_json_id (b :: s2) hh ht

theorem clean_json_tags_fenced (p w1 s w2 : LChar)
    (hntp : noTick p = true)
    (hw1 : ∀ c ∈ w1, isSpacePy c = true) (hw2 : ∀ c ∈ w2, isSpacePy c = true)
    (hh : jsonHeadOk s = true) (ht : jsonTailOk s = true) (hnt : noTick s = true) :
    clean_json_tags (p ++ (fenceJson ++ (w1 ++ (s ++ (w2 ++ fence3)))))
      = p.dropWhile isSpacePy ++ s := by
  have hnts2 : noTick (s ++ w2) = true := by
    simp only [noTick, List.all_append, Bool.and_eq_true]
    exact ⟨hnt, noTick_of_ws w2 hw2⟩
  have hlen : (p ++ (fenceJson ++ (w1 ++ (s ++ (w2 ++ fence3))))).length
      = p.length + ((6 + (w1.length + (s.length + (w2.length + 3)))) + 1) := by
    simp [List.length_append, fenceJson, fence3]
    omega
  unfold clean_json_tags rmFenceWord
  rw [hlen]
  rw [rmFW_skip_prose p ((6 + (w1.length + (s.length + (w2.length + 3)))) + 1)
    (fenceJson ++ (w1 ++ (s ++ (w2 ++ fence3)))) hntp]
  rw [rmFW_at_fence (6 + (w1.length + (s.length + (w2.length + 3)))) w1 s
    (w2 ++ fence3) hw1 hh]
  rw [show s ++ (w2 ++ fence3) = (s ++ w2) ++ fence3 from by simp]
  rw [rmFW_keep_tail (s ++ w2) _ hnts2]
  rw [show p ++ ((s ++ w2) ++ fence3) = ((p ++ s) ++ w2) ++ fence3 from by simp]
  rw [rmFenceEnd_strip (p ++ s) w2]
  have hnt3 : noTick ((p ++ s) ++ w2) = true := by
    simp only [noTick, List.all_append, Bool.and_eq_true]
    exact ⟨⟨hntp, hnt⟩, noTick_of_ws w2 hw2⟩
  show pyStrip (rmFence3F ((p ++ s) ++ w2).length ((p ++ s) ++ w2)) = _
  rw [rmFence3F_noTick _ _ hnt3]
  exact pyStrip_append_json_ws p s w2 hh ht hw2

theorem cleanedOf_fenced (p w1 s w2 : LChar) (hp : proseOk p = true)
    (hw1 : ∀ c ∈ w1, isSpacePy c = true) (hw2 : ∀ c ∈ w2, isSpacePy c = true)
    (hh : jsonHeadOk s = true) (ht : jsonTailOk s = true) (hnt : noTick s = true)
    (hfa : trigFree trigsA s = true) (hfb : trigFree trigsB s = true) :
    cleanedOf (p ++ (fenceJson ++ (w1 ++ (s ++ (w2 ++ fence3))))) = s := by
  have hntp : noTick p = true := noTick_of_proseOk p hp
  have hp1ok : proseOk (p.dropWhile isSpacePy) = true := by
    simp only [proseOk, List.all_eq_true]
    intro c hc
    exact List.all_eq_true.mp hp c ((List.dropWhile_sublist _).subset hc)
  unfold cleanedOf
  rw [clean_json_tags_fenced p w1 s w2 hntp hw1 hw2 hh ht hnt]
  exact remove_reasoning_prose_json _ s hp1ok hh ht hfa hfb

theorem extract_of_cleaned (t s : LChar) (v : Json) (hc : cleanedOf t = s)
    (hjson : parseJson s = some v) : extract_clean_response t = v := by
  simp only [cleanedOf] at hc
  simp only [extract_clean_response, hc, hjson]

theorem extract_fail_general (t : LChar)
    (hpj : parseJson (cleanedOf t) = none)
    (hb : ∀ sp, spanFromTo lbrace rbrace (cleanedOf t) = some sp → parseJson sp = none)
    (ha : ∀ sp, spanFromTo '[' ']' (cleanedOf t) = some sp → parseJson sp = none) :
    extract_clean_response t = failRecord (cleanedOf t) := by
  have harr : extractArrayAttempt (cleanedOf t) = failRecord (cleanedOf t) := by
    unfold extractArrayAttempt
    cases hs : spanFromTo '[' ']' (cleanedOf t) with
    | none => rfl
    | some sp =>
      simp only []
      rw [ha sp hs]
  cases hs : spanFromTo lbrace rbrace (cleanedOf t) with
  | none =>
    simp only [cleanedOf] at hpj hs harr
    simp only [extract_clean_response, hpj, hs, harr, cleanedOf]
  | some sp =>
    have hps := hb sp hs
    simp only [cleanedOf] at hpj hs harr hps
    simp only [extract_clean_response, hpj, hs, hps, harr, cleanedOf]

/-- C2 (amended): `extract_clean_response` recovers an embedded well-formed
JSON object or array preceded by prose, and equally when the JSON is
wrapped in a triple-backtick json code fence after the prose (the JSON text
itself tick-free, opening with a brace or bracket, ending in
non-whitespace, and free of reasoning-trigger matches); and whenever the
direct parse and both regex-span parse attempts fail, it returns the
tagged failure record without raising.  However, the record carries the
CLEANED text, not the original one, and a well-formed JSON value of a
non-container kind (string, number, boolean) preceded by prose is NOT
recovered (see the counterexample). -/
theorem claim_C2_amended :
    (∀ p s v, proseOk p = true → jsonHeadOk s = true → jsonTailOk s = true →
        noTick s = true → trigFree trigsA s = true → trigFree trigsB s = true →
        parseJson s = some v → extract_clean_response (p ++ s) = v)
    ∧ (∀ p w1 s w2 v, proseOk p = true →
        (∀ c ∈ w1, isSpacePy c = true) → (∀ c ∈ w2, isSpacePy c = true) →
        jsonHeadOk s = true → jsonTailOk s = true → noTick s = true →
        trigFree trigsA s = true → trigFree trigsB s = true →
        parseJson s = some v →
        extract_clean_response (p ++ (fenceJson ++ (w1 ++ (s ++ (w2 ++ fence3)))))
          = v)
    ∧ (∀ t, parseJson (cleanedOf t) = none →
        (∀ sp, spanFromTo lbrace rbrace (cleanedOf t) = some sp →
          parseJson sp = none) →
        (∀ sp, spanFromTo '[' ']' (cleanedOf t) = some sp → parseJson sp = none) →
        extract_clean_response t = failRecord (cleanedOf t)) := by
  refine ⟨?_, ?_, ?_⟩
  · intro p s v hp hh ht hnt hfa hfb hjson
    exact extract_of_cleaned _ s v (cleanedOf_prose_json p s hp hh ht hnt hfa hfb) hjson
  · intro p w1 s w2 v hp hw1 hw2 hh ht hnt hfa hfb hjson
    exact extract_of_cleaned _ s v
      (cleanedOf_fenced p w1 s w2 hp hw1 hw2 hh ht hnt hfa hfb) hjson
  · intro t hpj hb ha
    exact extract_fail_general t hpj hb ha

/-- Witness: all three amended branches at concrete inputs — prose before a
JSON object is recovered, the same object wrapped in a json code fence
after prose is recovered, and a text on which every parse attempt fails
("x" followed by an unparseable brace span) yields the failure record
carrying the cleaned text. -/
theorem claim_C2_witness :
    extract_clean_response ("Answer: ".data ++ "\x7b\"a\":1\x7d".data)
        = Json.obj [("a".data, Json.num 1)]
      ∧ extract_clean_response ("See: ".data
          ++ (fenceJson ++ ([' '] ++ ("\x7b\"b\":2\x7d".data ++ ([' '] ++ fence3)))))
        = Json.obj [("b".data, Json.num 2)]
      ∧ extract_clean_response "x\x7by\x7d".data = failRecord "\x7by\x7d".data :=
  ⟨claim_C2_amended.1 "Answer: ".data "\x7b\"a\":1\x7d".data
      (Json.obj [("a".data, Json.num 1)])
      (by decide) (by decide) (by decide) (by decide) (by decide) (by decide) rfl,
   claim_C2_amended.2.1 "See: ".data [' '] "\x7b\"b\":2\x7d".data [' ']
      (Json.obj [("b".data, Json.num 2)])
      (by decide) (by decide) (by decide) (by decide) (by decide) (by decide)
      (by decide) (by decide) rfl,
   claim_C2_amended.2.2 "x\x7by\x7d".data rfl
      (by
        intro sp h
        rw [show spanFromTo lbrace rbrace (cleanedOf "x\x7by\x7d".data)
            = some "\x7by\x7d".data from rfl] at h
        rw [← Option.some.inj h]
        rfl)
      (by
        intro sp h
        rw [show spanFromTo '[' ']' (cleanedOf "x\x7by\x7d".data) = none from rfl] at h
        exact Option.noConfusion h)⟩
